import Mathlib

/-!
# Verification of the todo-vibe task domain core

Shallow embedding of the task data model and view-derivation engine of the
todo-vibe repository (src/src/domain/task.ts, src/src/app/page.tsx,
src/unnamed/part_001), together with proofs about the embedded operations.

Modelling conventions:

* Timestamps (ISO strings / JS Date values in the source) are modelled as
  integers: milliseconds since the epoch.  ISO-UTC strings compare
  lexicographically exactly as their instants compare numerically, so string
  comparisons on timestamps (localeCompare on createdAt) become integer
  comparisons.
* Local-time calendar operations (getFullYear/getMonth/getDate,
  new Date(y, m, d), setDate) are modelled with an explicit fixed timezone
  offset tz (milliseconds east of UTC, no DST): two instants have the same
  local calendar day iff they fall in the same tz-shifted day-sized slot, and
  the local midnight of an instant is the start of its slot.
* String manipulation is carried out on the underlying character lists with
  structurally recursive functions so that every definition evaluates by
  kernel reduction.  Char.isWhitespace stands for the JS whitespace class and
  Char.toLower for JS toLowerCase (they agree on the relevant characters).
* The recursive graph walks of the source (buildTaskTree's depth assignment,
  getAllDescendantIds, getAncestorIds) recurse along parentId links which the
  source does not guard against cycles; they are embedded with an explicit
  fuel argument large enough to be invisible on every input on which the
  source terminates (this is proved below as the termination claims).
* crypto.randomUUID and the default clock are injectable per the spec; the
  embedding takes the fresh id and the current time as arguments.
-/

namespace TodoVibe

/-! ## Characters and strings -/
/-- Character-list trim: drop whitespace from both ends (JS String.trim). -/
def trimChars (l : List Char) : List Char :=
  ((l.dropWhile Char.isWhitespace).reverse.dropWhile Char.isWhitespace).reverse

/-- JS String.trim, on the underlying characters. -/
def trimStr (s : String) : String := ⟨trimChars s.data⟩

/-- Helper for splitWsChars: cur holds the current chunk, reversed. -/
def splitWsAux : List Char → List Char → List (List Char)
  | cur, [] => if cur.isEmpty then [] else [cur.reverse]
  | cur, c :: rest =>
    if Char.isWhitespace c then
      if cur.isEmpty then splitWsAux [] rest else cur.reverse :: splitWsAux [] rest
    else splitWsAux (c :: cur) rest

/-- Split on runs of whitespace, keeping only the nonempty chunks.
On a trimmed string this is exactly the JS split on the regex of one or more
whitespace characters; on other strings the two differ only by empty boundary
chunks, which every caller in the source discards (they are not tags and
vanish when the rejoined title is trimmed). -/
def splitWsChars (l : List Char) : List (List Char) := splitWsAux [] l

/-- Lower-case a character list (JS toLowerCase). -/
def lowerChars (l : List Char) : List Char := l.map Char.toLower

/-- Is the first list a prefix of the second (character match from the start)? -/
def isPreOf : List Char → List Char → Bool
  | [], _ => true
  | _ :: _, [] => false
  | a :: as, b :: bs => a == b && isPreOf as bs

/-- JS String.includes: does the needle occur contiguously in the haystack? -/
def containsSub : List Char → List Char → Bool
  | n, [] => n.isEmpty
  | n, hs@(_ :: rest) => isPreOf n hs || containsSub n rest

/-! ## Task data model (task.ts) -/
/-- TaskId of task.ts (a type alias for string there as well). -/
abbrev TaskId := String

/-- The Task record of src/src/domain/task.ts.  Timestamps are epoch
milliseconds (see the module docstring). -/
structure Task where
  id : String
  title : String
  completed : Bool
  dueAt : Option Int
  parentId : Option String
  tags : List String
  createdAt : Int
  updatedAt : Int
  deletedAt : Option Int
  version : Nat

deriving DecidableEq, Repr

def TASK_STORAGE_VERSION : Nat := 1

deriving instance DecidableEq for Except

/-- The views of src/src/domain/task.ts. -/
inductive TaskView where
  | inbox | today | upcoming | completed | calendar

deriving DecidableEq, Repr

/-- extractTags of task.ts: split the raw title on whitespace; every chunk
that starts with # and is longer than one character becomes a tag (without
the #), the rest are rejoined with single spaces and trimmed. -/
def extractTags (raw : String) : String × List String :=
  let words := splitWsChars raw.data
  let isTagWord := fun (w : List Char) => isPreOf ['#'] w && w.length > 1
  let tags := (words.filter isTagWord).map (fun w => String.mk (w.drop 1))
  let titleWords := words.filter (fun w => !isTagWord w)
  (⟨trimChars ((titleWords.intersperse [' ']).flatten)⟩, tags)

/-- createTask of task.ts: fails (throws) iff the trimmed title is empty;
otherwise tags are extracted and the title falls back to the whole trimmed
input when the tag-stripped title is empty.  The fresh id and the clock are
injected. -/
def createTask (title : String) (dueAt : Option Int) (parentId : Option String)
    (now : Int) (id : String) : Except String Task :=
  let trimmed := trimStr title
  if trimmed = "" then .error "Task title cannot be empty"
  else
    let (cleanTitle, tags) := extractTags trimmed
    .ok
      { id := id
        title := if cleanTitle = "" then trimmed else cleanTitle
        completed := false
        dueAt := dueAt
        parentId := parentId
        tags := tags
        createdAt := now
        updatedAt := now
        deletedAt := none
        version := TASK_STORAGE_VERSION }

def toggleComplete (t : Task) (now : Int) : Task :=
  { t with completed := !t.completed, updatedAt := now }

def setCompleted (t : Task) (completed : Bool) (now : Int) : Task :=
  { t with completed := completed, updatedAt := now }

/-- updateTitle of task.ts: a rename whose trimmed text is empty is a silent
no-op; otherwise title and tags are replaced (with the same tag-stripped
fallback as createTask) and updatedAt is refreshed. -/
def updateTitle (t : Task) (title : String) (now : Int) : Task :=
  let trimmed := trimStr title
  if trimmed = "" then t
  else
    let (cleanTitle, tags) := extractTags trimmed
    { t with
      title := if cleanTitle = "" then trimmed else cleanTitle
      tags := tags
      updatedAt := now }

def softDelete (t : Task) (now : Int) : Task :=
  { t with deletedAt := some now, updatedAt := now }

def setDueDate (t : Task) (dueAt : Option Int) (now : Int) : Task :=
  { t with dueAt := dueAt, updatedAt := now }

/-! ## Date utilities (task.ts bottom half) -/
def dayMs : Int := 86400000

/-- Index of the local calendar day containing an instant, for timezone
offset tz: two instants get the same index iff they share the local
year/month/day.  Integer division here is Euclidean division, which is floor
division for the positive divisor dayMs. -/
def localDay (tz t : Int) : Int := (t + tz) / dayMs

/-- isSameDay of task.ts: equal local calendar year, month and day. -/
def isSameDay (tz a b : Int) : Bool := localDay tz a == localDay tz b

/-- startOfDay of task.ts: the instant of local midnight of the given day. -/
def startOfDay (tz t : Int) : Int := localDay tz t * dayMs - tz

/-- addDays of task.ts: local-calendar day arithmetic (fixed offset, no DST). -/
def addDays (t : Int) (days : Int) : Int := t + days * dayMs

/-- isWithinNextDays of task.ts: strictly between local midnight of from and
local midnight of from + days. -/
def isWithinNextDays (tz date from_ days : Int) : Bool :=
  decide (startOfDay tz from_ < date) && decide (date < startOfDay tz (addDays from_ days))

/-! ## Visibility, search, calendar key (task.ts middle) -/
/-- isVisibleInView of src/src/domain/task.ts.  Note that it consults only the
task's own dueAt field: no ancestor inheritance happens here. -/
def isVisibleInView (tz : Int) (t : Task) (v : TaskView) (now : Int) : Bool :=
  if t.deletedAt.isSome then false
  else
    match v with
    | .inbox => t.dueAt.isNone
    | .completed => t.completed
    | .today =>
      match t.dueAt with
      | none => false
      | some d => isSameDay tz d now
    | .upcoming =>
      match t.dueAt with
      | none => false
      | some d => isWithinNextDays tz d now 7 && !isSameDay tz d now
    | .calendar => false

/-- getTaskDueDateKey of src/src/domain/task.ts: the date part of the stored
ISO string, i.e. the UTC calendar day of the dueAt instant (modelled as that
day's index); none when dueAt is absent.  It takes only the task: the key of
a task without its own dueAt is none even when an ancestor has one. -/
def getTaskDueDateKey (t : Task) : Option Int := t.dueAt.map (fun m => m / dayMs)

/-- matchesSearch of task.ts: blank query matches everything, otherwise
case-insensitive substring match against the title or any tag. -/
def matchesSearch (t : Task) (query : String) : Bool :=
  let q := lowerChars (trimChars query.data)
  if q.isEmpty then true
  else
    containsSub q (lowerChars t.title.data)
      || t.tags.any (fun tag => containsSub q (lowerChars tag.data))

/-! ## Tree builder (buildTaskTree / flattenTaskTree of task.ts)

The source builds the forest imperatively: one node per live task, children
linked by parentId when the parent is live (else the node is a root), depth
assigned top-down from the roots, then every sibling list sorted by createdAt
with the (stable) JS array sort.  The embedding computes the same forest
denotationally: the children of a live task t are exactly the live tasks
whose parentId is t.id, in input order, and the recursion that mirrors the
source's top-down depth assignment plus recursive sort carries fuel, set to
the number of live tasks (proved sufficient below).  Stable sorting by
createdAt is insertion sort, which agrees with any stable comparator sort. -/
def liveTasks (tasks : List Task) : List Task :=
  tasks.filter (fun t => t.deletedAt.isNone)

/-- Is some live task carrying this id (taskMap.has in the source)? -/
def isLiveId (tasks : List Task) (pid : TaskId) : Bool :=
  (liveTasks tasks).any (fun t => t.id == pid)

/-- The live tasks that the source links as children of the node of pid. -/
def childTasks (tasks : List Task) (pid : TaskId) : List Task :=
  (liveTasks tasks).filter (fun t => t.parentId == some pid)

/-- The live tasks the source pushes to the roots array: parentId absent or
not resolvable to a live task. -/
def rootTasks (tasks : List Task) : List Task :=
  (liveTasks tasks).filter (fun t =>
    match t.parentId with
    | none => true
    | some p => !isLiveId tasks p)

/-- Stable sort of siblings by createdAt (the source sorts with localeCompare
on the ISO createdAt strings, which orders exactly by instant). -/
def sortByCreatedAt (l : List Task) : List Task :=
  List.insertionSort (fun a b => a.createdAt ≤ b.createdAt) l

/-- TaskTreeNode of task.ts: a task, its (ordered) children, its depth. -/
inductive TaskTreeNode where
  | mk (task : Task) (children : List TaskTreeNode) (depth : Nat)

def TaskTreeNode.task : TaskTreeNode → Task
  | .mk t _ _ => t

def TaskTreeNode.children : TaskTreeNode → List TaskTreeNode
  | .mk _ cs _ => cs

def TaskTreeNode.depth : TaskTreeNode → Nat
  | .mk _ _ d => d

/-- The subtree of the built forest hanging at live task t with depth d;
fuel bounds the recursion depth (the source recursion terminates exactly when
the part of the parentId graph reachable from the roots is finite-depth, and
fuel = number of live tasks is proved to be enough then). -/
def buildNodeFuel (tasks : List Task) : Nat → Task → Nat → TaskTreeNode
  | 0, t, d => .mk t [] d
  | fuel + 1, t, d =>
    .mk t ((sortByCreatedAt (childTasks tasks t.id)).map
      (fun c => buildNodeFuel tasks fuel c (d + 1))) d

def buildTaskTreeFuel (tasks : List Task) (fuel : Nat) : List TaskTreeNode :=
  (sortByCreatedAt (rootTasks tasks)).map (fun r => buildNodeFuel tasks fuel r 0)

/-- buildTaskTree of task.ts. -/
def buildTaskTree (tasks : List Task) : List TaskTreeNode :=
  buildTaskTreeFuel tasks (liveTasks tasks).length

mutual

/-- Depth-first preorder traversal of one node (traverse in the source). -/
def flattenNode : TaskTreeNode → List TaskTreeNode
  | .mk t cs d => .mk t cs d :: flattenList cs

def flattenList : List TaskTreeNode → List TaskTreeNode
  | [] => []
  | n :: ns => flattenNode n ++ flattenList ns

end

/-- flattenTaskTree of task.ts: depth-first preorder flattening. -/
def flattenTaskTree (nodes : List TaskTreeNode) : List TaskTreeNode :=
  flattenList nodes

/-! ## Descendant and ancestor traversals (task.ts bottom) -/
/-- JS Set.add on an insertion-ordered list. -/
def addSet (l : List TaskId) (x : TaskId) : List TaskId :=
  if x ∈ l then l else l ++ [x]

/-- One sweep of the collect loop of getAllDescendantIds: scan the remaining
task list; every live child of id is added to the accumulator and immediately
recursed into (rec is the recursive call one fuel level down). -/
def collectGo (rec : TaskId → List TaskId → List TaskId) :
    List Task → TaskId → List TaskId → List TaskId
  | [], _, acc => acc
  | t :: rest, id, acc =>
    if t.parentId == some id && t.deletedAt.isNone then
      collectGo rec rest id (rec t.id (addSet acc t.id))
    else collectGo rec rest id acc

/-- The collect recursion of getAllDescendantIds, with fuel bounding the
recursion depth (the source has no cycle guard). -/
def collectDescFuel (tasks : List Task) : Nat → TaskId → List TaskId → List TaskId
  | 0, _, acc => acc
  | fuel + 1, id, acc => collectGo (collectDescFuel tasks fuel) tasks id acc

/-- getAllDescendantIds of task.ts: ids of all live tasks whose parentId
chain leads to taskId, in depth-first discovery order.  The definition's fuel
of tasks.length + 1 never runs out on inputs where the source terminates
(proved below). -/
def getAllDescendantIds (taskId : TaskId) (tasks : List Task) : List TaskId :=
  collectDescFuel tasks (tasks.length + 1) taskId []

/-- The while loop of getAncestorIds: walk parentId links upward through live
tasks, collecting ids from nearest to farthest; fuel bounds the walk. -/
def ancLoopFuel (tasks : List Task) : Nat → Option TaskId → List TaskId → List TaskId
  | _, none, acc => acc
  | 0, some _, acc => acc
  | fuel + 1, some cid, acc =>
    match tasks.find? (fun t => t.id == cid && t.deletedAt.isNone) with
    | none => acc
    | some p => ancLoopFuel tasks fuel p.parentId (acc ++ [p.id])

/-- getAncestorIds of task.ts: the ids of the live ancestors of the (live)
task with id taskId, from immediate parent to topmost resolvable ancestor. -/
def getAncestorIds (taskId : TaskId) (tasks : List Task) : List TaskId :=
  match tasks.find? (fun t => t.id == taskId && t.deletedAt.isNone) with
  | none => []
  | some t => ancLoopFuel tasks (tasks.length + 1) t.parentId []

/-- The parent lookup both ancestor walks perform: the first task in the
collection with the sought id that is not soft-deleted. -/
def parentF (tasks : List Task) (t : Task) : Option Task :=
  match t.parentId with
  | none => none
  | some p => tasks.find? (fun x => x.id == p && x.deletedAt.isNone)

/-- k steps of the upward parent walk, as an absorbing Option iteration. -/
def parIter (tasks : List Task) (k : Nat) (t : Task) : Option Task :=
  (fun o => Option.bind o (parentF tasks))^[k] (some t)

/-- The parentId links among live tasks are acyclic: every upward walk dies
out within tasks.length steps.  For a finite collection this bound is
equivalent to the absence of any parentId cycle among live tasks. -/
def AcyclicTasks (tasks : List Task) : Prop :=
  ∀ t ∈ liveTasks tasks, parIter tasks tasks.length t = none

instance (tasks : List Task) : Decidable (AcyclicTasks tasks) := by
  unfold AcyclicTasks; infer_instance

/-! ## Application-level cascades (page.tsx) -/
/-- The body of the ancestor loop of handleToggleComplete (page.tsx): given
the current collection, re-check one ancestor id and complete it when all of
its (dedup-counted, nonempty) descendants are completed and it is not. -/
def cascadeStep (now : Int) (next : List Task) (aid : TaskId) : List Task :=
  let descIds := getAllDescendantIds aid next
  let allDescendantsDone :=
    !descIds.isEmpty
      && descIds.all (fun tid =>
        (Option.map (fun (t : Task) => t.completed) (next.find? (fun t => t.id == tid))).getD false)
  match next.find? (fun t => t.id == aid) with
  | none => next
  | some ancestor =>
    if allDescendantsDone && !ancestor.completed then
      next.map (fun t => if t.id == aid then setCompleted t true now else t)
    else next

/-- handleToggleComplete of page.tsx (the state-update function): toggle the
task, then sweep its ancestors from nearest to farthest, completing every
ancestor whose descendants have all become completed. -/
def toggleCompleteCascade (id : TaskId) (tasks : List Task) (now : Int) : List Task :=
  let next0 := tasks.map (fun t => if t.id == id then toggleComplete t now else t)
  (getAncestorIds id next0).foldl (cascadeStep now) next0

/-- handleDelete of page.tsx (the state update performed once the user
confirms): soft-delete the task and every id in getAllDescendantIds, in one
atomic replacement of the collection. -/
def deleteCascade (id : TaskId) (tasks : List Task) (now : Int) : List Task :=
  let descendants := getAllDescendantIds id tasks
  tasks.map (fun t => if t.id == id || t.id ∈ descendants then softDelete t now else t)

/-! ## Effective due date and calendar bucketing -/
/-- Upward walk of the effective-due-date lookup: nearest ancestor first. -/
def effDueLoop (tasks : List Task) : Nat → Option TaskId → Option Int
  | _, none => none
  | 0, some _ => none
  | fuel + 1, some cid =>
    match tasks.find? (fun x => x.id == cid && x.deletedAt.isNone) with
    | none => none
    | some p =>
      match p.dueAt with
      | some d => some d
      | none => effDueLoop tasks fuel p.parentId

/-- Modelled from the spec: getEffectiveDueDate is imported from the domain
module by the current page (src/unnamed/part_001) but no version of task.ts
in the snapshot defines it.  Spec section 4.4: the task's own dueAt if set;
otherwise the nearest ancestor's dueAt, walking parentId links through live
tasks; otherwise null. -/
def getEffectiveDueDate (t : Task) (tasks : List Task) : Option Int :=
  match t.dueAt with
  | some d => some d
  | none => effDueLoop tasks (tasks.length + 1) t.parentId

/-- Does the task have a live child (the leaf test of the calendar view in
src/unnamed/part_001)? -/
def hasLiveChildren (tasks : List Task) (t : Task) : Bool :=
  tasks.any (fun other => other.deletedAt.isNone && other.parentId == some t.id)

/-- tasksByDate of src/unnamed/part_001, read at one key: the bucket of a
calendar day holds, in input order, the live tasks matching the search that
have no live children and whose own due-date key is that day.  (The page
passes the collection as a second argument to getTaskDueDateKey, but the
domain function in the snapshot takes only the task, so inherited due dates
play no part.) -/
def tasksByDateBucket (tasks : List Task) (query : String) (key : Int) : List Task :=
  tasks.foldl (fun acc t =>
    if t.deletedAt.isSome then acc
    else if !matchesSearch t query then acc
    else if hasLiveChildren tasks t then acc
    else
      match getTaskDueDateKey t with
      | none => acc
      | some k => if k == key then acc ++ [t] else acc) []

/-! ## Concrete example collections (used by witnesses and counterexamples) -/
/-- A minimal task value for building concrete collections. -/
def mkT (id : String) (parent : Option String) (created : Int) : Task :=
  { id := id, title := id, completed := false, dueAt := none, parentId := parent,
    tags := [], createdAt := created, updatedAt := created, deletedAt := none, version := 1 }

/-- Root with a due date five days into the epoch. -/
def exParentDue : Task := { mkT "p" none 0 with dueAt := some (5 * dayMs) }

/-- Child of exParentDue without its own due date. -/
def exChildNoDue : Task := mkT "c" (some "p") 1

def exInherit : List Task := [exParentDue, exChildNoDue]

/-- Two live tasks whose parentId links form a cycle (ids unique). -/
def exCyc : List Task := [mkT "a" (some "b") 0, mkT "b" (some "a") 1]

/-- Scenario 3 of the spec: root a created first, children b and c. -/
def exABC : List Task := [mkT "b" (some "a") 2, mkT "c" (some "a") 3, mkT "a" none 1]

/-! ### Chains from the roots -/
/-- A valid upward chain: consecutive elements are parent-linked live tasks
and the last element is a root. -/
def ChainLink (tasks : List Task) : List Task → Prop
  | [] => True
  | [a] => a ∈ rootTasks tasks
  | a :: b :: rest => a ∈ liveTasks tasks ∧ a.parentId = some b.id ∧ ChainLink tasks (b :: rest)

/-- The task t sits in the built forest below a root, with banned the ids of
the strict ancestors accumulated on the way down. -/
inductive RootedAt (tasks : List Task) : List TaskId → Task → Prop where
  | root (t : Task) : t ∈ rootTasks tasks → RootedAt tasks [] t
  | child (banned : List TaskId) (t c : Task) :
      RootedAt tasks banned t → c ∈ liveTasks tasks → c.parentId = some t.id →
      RootedAt tasks (t.id :: banned) c

/-! ### Fuel sufficiency for the tree builder

The recursion of the source terminates along every path from a root because
such a path can never revisit a task: the measure is the number of live
tasks whose id is not yet banned (i.e. not an ancestor on the current path).
-/
/-- The live tasks not yet visited on the current root-to-node path. -/
def availTasks (tasks : List Task) (banned : List TaskId) : List Task :=
  (liveTasks tasks).filter (fun x => !(banned.contains x.id))

/-! ### Depth assignment -/
mutual

/-- Does every node of this subtree carry depth = its distance from the
forest roots, starting from the expected depth e? -/
def depthOKb : TaskTreeNode → Nat → Bool
  | .mk _ cs d, e => (d == e) && depthOKlist cs (e + 1)

def depthOKlist : List TaskTreeNode → Nat → Bool
  | [], _ => true
  | n :: ns, e => depthOKb n e && depthOKlist ns e

end

/-! ### C10: termination of the descendant and ancestor walks -/
/-- The descendant collector at an arbitrary fuel (the source fixes no fuel;
the embedding's default is tasks.length + 1). -/
def getAllDescendantIdsFuel (tasks : List Task) (fuel : Nat) (taskId : TaskId) : List TaskId :=
  collectDescFuel tasks fuel taskId []

/-- The ancestor walk at an arbitrary fuel. -/
def getAncestorIdsFuel (tasks : List Task) (fuel : Nat) (taskId : TaskId) : List TaskId :=
  match tasks.find? (fun t => t.id == taskId && t.deletedAt.isNone) with
  | none => []
  | some t => ancLoopFuel tasks fuel t.parentId []

/-! ### C3 groundwork: the traversals read only id, parentId and deletedAt -/
/-- The projection of a task that the graph traversals consult. -/
def taskKey (t : Task) : TaskId × Option TaskId × Option Int :=
  (t.id, t.parentId, t.deletedAt)

/-! ### C3 groundwork: the cascade as a growing set of completed ancestors -/
/-- The collection obtained from l by completing every task whose id is in S
(the cascade only ever applies setCompleted with value true). -/
def applyCompleted (S : List TaskId) (now : Int) (l : List Task) : List Task :=
  l.map (fun t => if t.id ∈ S then setCompleted t true now else t)

/-- The guard the cascade evaluates for ancestor aid over state st: some
descendants exist and all of them are completed. -/
def allDoneB (aid : TaskId) (st : List Task) : Bool :=
  !(getAllDescendantIds aid st).isEmpty
    && (getAllDescendantIds aid st).all (fun tid =>
      (Option.map (fun (t : Task) => t.completed) (st.find? (fun t => t.id == tid))).getD false)

/-- The set of ancestor ids completed by the cascade sweep, computed over the
same states the sweep itself sees. -/
def cascadeSet (now : Int) (next0 : List Task) : List TaskId → List TaskId → List TaskId
  | [], S => S
  | aid :: rest, S =>
    match (applyCompleted S now next0).find? (fun t => t.id == aid) with
    | none => cascadeSet now next0 rest S
    | some ancestor =>
      if (allDoneB aid (applyCompleted S now next0) && !ancestor.completed) = true then
        cascadeSet now next0 rest (S ++ [aid])
      else cascadeSet now next0 rest S

/-! ### C3 groundwork: the ancestor list as an upward chain -/
/-- The ids the while loop of getAncestorIds pushes, nearest ancestor first. -/
def upChain (tasks : List Task) : Nat → Option TaskId → List TaskId
  | _, none => []
  | 0, some _ => []
  | f + 1, some cid =>
    match tasks.find? (fun x => x.id == cid && x.deletedAt.isNone) with
    | none => []
    | some p => p.id :: upChain tasks f p.parentId

/-! ### C3 groundwork: soundness of the descendant collector -/
/-- x is reachable from pid by following live child links downward (the
relation the recursion of getAllDescendantIds walks). -/
inductive IdDesc (tasks : List Task) : TaskId → TaskId → Prop where
  | child (pid : TaskId) (t : Task) (ht : t ∈ tasks) (hp : t.parentId = some pid)
      (hd : t.deletedAt = none) : IdDesc tasks pid t.id
  | trans (pid : TaskId) (t : Task) (ht : t ∈ tasks) (hp : t.parentId = some pid)
      (hd : t.deletedAt = none) (x : TaskId) (h : IdDesc tasks t.id x) :
      IdDesc tasks pid x

/-- The collection right after the toggle itself (the first statement of
handleToggleComplete). -/
def toggledTasks (id : TaskId) (tasks : List Task) (now : Int) : List Task :=
  tasks.map (fun t => if t.id == id then toggleComplete t now else t)

/-- The ids the ancestor sweep of handleToggleComplete completes. -/
def cascadeIds (id : TaskId) (tasks : List Task) (now : Int) : List TaskId :=
  cascadeSet now (toggledTasks id tasks now)
    (getAncestorIds id (toggledTasks id tasks now)) []

/-- The completed flag the cascade guard reads for an id: that of the first
task carrying it, false when absent. -/
def completedIn (l : List Task) (tid : TaskId) : Bool :=
  (Option.map (fun (t : Task) => t.completed) (l.find? (fun t => t.id == tid))).getD false

/-- Root p with two children: a (already completed) and b (not yet). -/
def exCascade : List Task :=
  [mkT "p" none 0, { mkT "a" (some "p") 1 with completed := true }, mkT "b" (some "p") 2]

/-! ## Basic date lemmas -/
theorem localDay_addDays (tz t days : Int) :
    localDay tz (addDays t days) = localDay tz t + days := by
  unfold localDay addDays
  rw [show t + days * dayMs + tz = t + tz + days * dayMs by ring]
  exact Int.add_mul_ediv_right _ _ (by decide)

theorem startOfDay_addDays (tz t days : Int) :
    startOfDay tz (addDays t days) = startOfDay tz t + days * dayMs := by
  unfold startOfDay
  rw [localDay_addDays]
  ring

/-! ## C1: what the visibility predicate consults -/
/-- C1 counterexample: in the collection exInherit the child has no own dueAt
while its live parent is due on day 5, so its effective due date (spec 4.4)
is day 5; yet isVisibleInView shows it in the inbox, and does not show it in
the today view on day 5: the predicate of src/src/domain/task.ts reads only
the task's own dueAt, never the inherited one.  This falsifies the claim that
inbox membership requires no *effective* due date and that today membership
follows the effective due date. -/
theorem isVisibleInView_ignores_inherited_due :
    getEffectiveDueDate exChildNoDue exInherit = some (5 * dayMs)
      ∧ isVisibleInView 0 exChildNoDue .inbox 0 = true
      ∧ isSameDay 0 (5 * dayMs) (5 * dayMs + 60000) = true
      ∧ isVisibleInView 0 exChildNoDue .today (5 * dayMs + 60000) = false := by
  decide

/-- C1 (amended): isVisibleInView decides inbox and today membership from the
task's own dueAt only: a live task is visible in the inbox iff its own dueAt
is absent (regardless of any ancestor's dueAt), and visible in the today view
iff its own dueAt falls on the same local calendar day as now. -/
theorem isVisibleInView_inbox_today (tz now : Int) (t : Task) :
    (isVisibleInView tz t .inbox now = true ↔ t.deletedAt = none ∧ t.dueAt = none)
      ∧ (isVisibleInView tz t .today now = true ↔
          t.deletedAt = none ∧ ∃ d, t.dueAt = some d ∧ localDay tz d = localDay tz now) := by
  obtain ⟨id, title, comp, dueAt, par, tags, ca, ua, da, v⟩ := t
  cases da <;> cases dueAt <;> simp [isVisibleInView, isSameDay]

/-! ## C5: when createTask fails -/
/-- C5 counterexample: the title consisting of the single tag token has an
empty trimmed tag-stripped form, yet createTask succeeds (falling back to the
trimmed original): creation does not fail whenever the tag-stripped title is
empty, only when the trimmed title is. -/
theorem createTask_tag_only_succeeds :
    (extractTags (trimStr "#foo")).1 = ""
      ∧ createTask "#foo" none none 0 "id1" =
          .ok { id := "id1", title := "#foo", completed := false, dueAt := none,
                parentId := none, tags := ["foo"], createdAt := 0, updatedAt := 0,
                deletedAt := none, version := 1 } := by
  decide

/-- C5 (amended): createTask fails (with the empty-title error) exactly when
the *trimmed* title is empty; on success the title is the tag-stripped clean
title, falling back to the original trimmed title when the clean title is
empty, and the remaining fields are the documented defaults. -/
theorem createTask_spec (title : String) (dueAt : Option Int)
    (parentId : Option String) (now : Int) (id : String) :
    ((createTask title dueAt parentId now id).isOk = true ↔ ¬trimStr title = "")
      ∧ (trimStr title = "" →
          createTask title dueAt parentId now id = .error "Task title cannot be empty")
      ∧ (∀ t, createTask title dueAt parentId now id = .ok t →
          t.title = (if (extractTags (trimStr title)).1 = "" then trimStr title
            else (extractTags (trimStr title)).1)
            ∧ t.tags = (extractTags (trimStr title)).2
            ∧ t.id = id ∧ t.completed = false ∧ t.dueAt = dueAt ∧ t.parentId = parentId
            ∧ t.createdAt = now ∧ t.updatedAt = now ∧ t.deletedAt = none) := by
  unfold createTask
  by_cases h : trimStr title = "" <;> simp [h, Except.isOk, Except.toBool]

/-- Witness for createTask_spec: scenario 1 of the spec succeeds and yields
title Buy milk; scenario 2 (blank title) fails. -/
theorem createTask_spec_witness :
    (createTask "Buy milk #errand #home" none none 5 "id1").isOk = true
      ∧ createTask "   " none none 5 "id2" = .error "Task title cannot be empty"
      ∧ ({ id := "id1", title := "Buy milk", completed := false, dueAt := none,
           parentId := none, tags := ["errand", "home"], createdAt := 5, updatedAt := 5,
           deletedAt := none, version := 1 } : Task).title = "Buy milk" :=
  ⟨(createTask_spec "Buy milk #errand #home" none none 5 "id1").1.mpr (by decide),
   (createTask_spec "   " none none 5 "id2").2.1 (by decide),
   ((createTask_spec "Buy milk #errand #home" none none 5 "id1").2.2 _ (by decide)).1.trans
     (by decide)⟩

/-! ## C8: when updateTitle is a no-op -/
/-- C8 counterexample: renaming to a tag-only title (whose trimmed,
tag-stripped form is empty) is not a no-op: the task's tags and updatedAt
change, because updateTitle only checks the *trimmed* title for emptiness. -/
theorem updateTitle_tag_only_changes :
    (extractTags (trimStr "#foo")).1 = ""
      ∧ updateTitle (mkT "t" none 0) "#foo" 7 ≠ mkT "t" none 0
      ∧ (updateTitle (mkT "t" none 0) "#foo" 7).tags = ["foo"]
      ∧ (updateTitle (mkT "t" none 0) "#foo" 7).title = "#foo" := by
  decide

/-- C8 (amended): updateTitle returns the task unchanged exactly when the
*trimmed* new title is empty; otherwise it replaces title (tag-stripped, with
fallback to the trimmed input when that is empty) and tags and refreshes
updatedAt, leaving every other field unchanged. -/
theorem updateTitle_spec (t : Task) (title : String) (now : Int) :
    (trimStr title = "" → updateTitle t title now = t)
      ∧ (¬trimStr title = "" →
          updateTitle t title now =
            { t with
              title := if (extractTags (trimStr title)).1 = "" then trimStr title
                else (extractTags (trimStr title)).1
              tags := (extractTags (trimStr title)).2
              updatedAt := now }) := by
  unfold updateTitle
  by_cases h : trimStr title = "" <;> simp [h]

/-- Witness for updateTitle_spec: a blank rename is a no-op, a real rename
replaces title, tags and updatedAt. -/
theorem updateTitle_spec_witness :
    updateTitle (mkT "t" none 0) "   " 9 = mkT "t" none 0
      ∧ updateTitle (mkT "t" none 0) " Plan #work " 9 =
          { mkT "t" none 0 with title := "Plan", tags := ["work"], updatedAt := 9 } :=
  ⟨(updateTitle_spec (mkT "t" none 0) "   " 9).1 (by decide),
   ((updateTitle_spec (mkT "t" none 0) " Plan #work " 9).2 (by decide)).trans (by decide)⟩

/-! ## C7: the upcoming window -/
/-- C7: isWithinNextDays holds exactly strictly between the local midnight of
from and the local midnight of from + days (both boundaries excluded); hence
in the 7-day upcoming view a task due on the same local day as now is not
visible, a task due exactly at local midnight 7 days after now is not
visible, and no task is visible in both today and upcoming at the same now. -/
theorem upcoming_window_boundaries (tz date from_ days now d : Int) (t : Task) :
    (isWithinNextDays tz date from_ days = true ↔
        startOfDay tz from_ < date ∧ date < startOfDay tz from_ + days * dayMs)
      ∧ (t.dueAt = some d → isSameDay tz d now = true →
          isVisibleInView tz t .upcoming now = false)
      ∧ (t.dueAt = some d → d = startOfDay tz now + 7 * dayMs →
          isVisibleInView tz t .upcoming now = false)
      ∧ ¬(isVisibleInView tz t .today now = true ∧ isVisibleInView tz t .upcoming now = true) := by
  refine ⟨?_, ?_, ?_, ?_⟩
  · unfold isWithinNextDays
    rw [startOfDay_addDays]
    simp
  · intro hdue hsame
    simp [isVisibleInView, hdue, hsame]
  · intro hdue hend
    have hwin : isWithinNextDays tz d now 7 = false := by
      unfold isWithinNextDays
      rw [startOfDay_addDays, hend]
      simp
    simp [isVisibleInView, hdue, hwin]
  · rintro ⟨ht, hu⟩
    obtain ⟨id, title, comp, dueAt, par, tags, ca, ua, da, v⟩ := t
    cases da <;> cases dueAt <;> simp_all [isVisibleInView]

/-- Witness for upcoming_window_boundaries: with tz = 0, now = 0, a task due
at instant 0 (today) is invisible in upcoming and one due at exactly 7 days
is invisible in upcoming. -/
theorem upcoming_window_boundaries_witness :
    isVisibleInView 0 { mkT "w1" none 0 with dueAt := some 0 } .upcoming 0 = false
      ∧ isVisibleInView 0 { mkT "w2" none 0 with dueAt := some (7 * dayMs) } .upcoming 0 = false :=
  ⟨(upcoming_window_boundaries 0 0 0 7 0 0 { mkT "w1" none 0 with dueAt := some 0 }).2.1
      (by decide) (by decide),
   (upcoming_window_boundaries 0 0 0 7 0 (7 * dayMs)
      { mkT "w2" none 0 with dueAt := some (7 * dayMs) }).2.2.1 (by decide) (by decide)⟩

/-! ## C6: calendar day buckets -/
/-- C6 counterexample: in exInherit the child is live, matches the empty
query, is a leaf (no live children) and has the inherited effective due date
of day 5, yet it sits in no day bucket: the bucketing keys on the task's own
dueAt via getTaskDueDateKey, so a leaf without its own dueAt is absent even
from the bucket of its effective due day.  (Also, the bucket of day 5 holds
nothing: the parent is excluded as a non-leaf.) -/
theorem tasksByDate_ignores_inherited_due :
    getEffectiveDueDate exChildNoDue exInherit = some (5 * dayMs)
      ∧ exChildNoDue.deletedAt = none
      ∧ matchesSearch exChildNoDue "" = true
      ∧ hasLiveChildren exInherit exChildNoDue = false
      ∧ exChildNoDue ∉ tasksByDateBucket exInherit "" 5
      ∧ tasksByDateBucket exInherit "" 5 = [] := by
  decide

/-- C6 (amended): the day bucket of key k contains a task iff it is in the
collection, live, matches the query, has no live children (is a leaf), and
its OWN dueAt has day key k (the date part of the stored ISO string, i.e.
its UTC calendar day); tasks whose due date is only inherited appear in no
bucket. -/
theorem mem_tasksByDateBucket (tasks : List Task) (query : String) (k : Int) (t : Task) :
    t ∈ tasksByDateBucket tasks query k ↔
      t ∈ tasks ∧ t.deletedAt = none ∧ matchesSearch t query = true
        ∧ hasLiveChildren tasks t = false ∧ getTaskDueDateKey t = some k := by
  have stepmem : ∀ (acc : List Task) (u : Task),
      (t ∈ (if u.deletedAt.isSome then acc
        else if !matchesSearch u query then acc
        else if hasLiveChildren tasks u then acc
        else match getTaskDueDateKey u with
          | none => acc
          | some k2 => if k2 == k then acc ++ [u] else acc)) ↔
      t ∈ acc ∨ (t = u ∧ u.deletedAt = none ∧ matchesSearch u query = true
        ∧ hasLiveChildren tasks u = false ∧ getTaskDueDateKey u = some k) := by
    intro acc u
    rcases hd : u.deletedAt with _ | d <;>
      rcases hm : matchesSearch u query with _ | _ <;>
        rcases hc : hasLiveChildren tasks u with _ | _ <;>
          rcases hk : getTaskDueDateKey u with _ | k2 <;>
            simp [hd, hm, hc, hk]
    by_cases hkk : k2 = k <;> simp [hkk]
  have key : ∀ (l acc : List Task),
      (t ∈ l.foldl (fun acc u =>
        if u.deletedAt.isSome then acc
        else if !matchesSearch u query then acc
        else if hasLiveChildren tasks u then acc
        else match getTaskDueDateKey u with
          | none => acc
          | some k2 => if k2 == k then acc ++ [u] else acc) acc) ↔
      t ∈ acc ∨ (∃ u ∈ l, t = u ∧ u.deletedAt = none ∧ matchesSearch u query = true
        ∧ hasLiveChildren tasks u = false ∧ getTaskDueDateKey u = some k) := by
    intro l
    induction l with
    | nil => intro acc; simp
    | cons u rest ih =>
      intro acc
      rw [List.foldl_cons, ih, stepmem]
      constructor
      · rintro (⟨h | h⟩ | ⟨v, hv, hrest⟩)
        · exact .inl h
        · exact .inr ⟨u, by simp, h⟩
        · exact .inr ⟨v, by simp [hv], hrest⟩
      · rintro (h | ⟨v, hv, hrest⟩)
        · exact .inl (.inl h)
        · rcases List.mem_cons.mp hv with rfl | hv
          · exact .inl (.inr hrest)
          · exact .inr ⟨v, hv, hrest⟩
  unfold tasksByDateBucket
  rw [key]
  constructor
  · rintro (h | ⟨u, hu, rfl, hrest⟩)
    · simp at h
    · exact ⟨hu, hrest⟩
  · rintro ⟨hu, hrest⟩
    exact .inr ⟨t, hu, rfl, hrest⟩

/-! ## C4: cascading delete -/
/-- Results of collectGo always extend the accumulator (membership-wise),
provided the recursive callee does. -/
theorem subset_collectGo (rec : TaskId → List TaskId → List TaskId)
    (hrec : ∀ i acc, acc ⊆ rec i acc) :
    ∀ (l : List Task) (id : TaskId) (acc : List TaskId), acc ⊆ collectGo rec l id acc := by
  intro l
  induction l with
  | nil => intro id acc; exact fun x hx => hx
  | cons u rest ih =>
    intro id acc
    unfold collectGo
    by_cases h : (u.parentId == some id && u.deletedAt.isNone) = true
    · rw [if_pos h]
      intro x hx
      refine ih id _ ?_
      refine hrec u.id _ ?_
      unfold addSet
      by_cases hm : u.id ∈ acc
      · rwa [if_pos hm]
      · rw [if_neg hm]; exact List.mem_append_left _ hx
    · rw [if_neg h]; exact ih id acc

/-- Results of the descendant collector always extend the accumulator. -/
theorem subset_collectDescFuel (tasks : List Task) :
    ∀ (fuel : Nat) (id : TaskId) (acc : List TaskId), acc ⊆ collectDescFuel tasks fuel id acc := by
  intro fuel
  induction fuel with
  | zero => intro id acc; exact fun x hx => hx
  | succ fuel ih =>
    intro id acc
    unfold collectDescFuel
    exact subset_collectGo _ ih tasks id acc

/-- Every live child occurring in the scanned list ends up in the collector
output. -/
theorem mem_collectGo_of_child (rec : TaskId → List TaskId → List TaskId)
    (hrec : ∀ i acc, acc ⊆ rec i acc) :
    ∀ (l : List Task) (id : TaskId) (acc : List TaskId) (u : Task), u ∈ l →
      u.parentId = some id → u.deletedAt = none → u.id ∈ collectGo rec l id acc := by
  intro l
  induction l with
  | nil => intro id acc u hu; simp at hu
  | cons v rest ih =>
    intro id acc u hu hpar hdel
    rcases List.mem_cons.mp hu with rfl | hu
    · unfold collectGo
      rw [if_pos (by simp [hpar, hdel])]
      refine subset_collectGo rec hrec rest id _ ?_
      refine hrec u.id _ ?_
      unfold addSet
      by_cases hm : u.id ∈ acc
      · rwa [if_pos hm]
      · rw [if_neg hm]; simp
    · unfold collectGo
      by_cases h : (v.parentId == some id && v.deletedAt.isNone) = true
      · rw [if_pos h]; exact ih id _ u hu hpar hdel
      · rw [if_neg h]; exact ih id acc u hu hpar hdel

/-- When nothing in the scanned list is a live child of id, the collector
sweep returns the accumulator unchanged. -/
theorem collectGo_of_no_child (rec : TaskId → List TaskId → List TaskId)
    (l : List Task) (id : TaskId) (acc : List TaskId)
    (h : ∀ u ∈ l, ¬(u.parentId = some id ∧ u.deletedAt = none)) :
    collectGo rec l id acc = acc := by
  induction l with
  | nil => rfl
  | cons v rest ih =>
    unfold collectGo
    rw [if_neg ?_]
    · exact ih (fun u hu => h u (List.mem_cons_of_mem v hu))
    · have := h v (List.mem_cons_self v rest)
      simp only [Bool.and_eq_true, beq_iff_eq, Option.isNone_iff_eq_none]
      tauto

/-- C4: deleteCascade replaces the collection in one step: position by
position, the task is soft-deleted (deletedAt and updatedAt set to now) when
its id is the deleted id or one of its descendant ids, and returned untouched
otherwise; every task of the result carrying one of those ids has deletedAt
set to now; and the descendant set of the deleted id over the result is
empty. -/
theorem deleteCascade_spec (id : TaskId) (tasks : List Task) (now : Int) :
    List.Forall₂ (fun a b =>
        b = if a.id = id ∨ a.id ∈ getAllDescendantIds id tasks then softDelete a now else a)
      tasks (deleteCascade id tasks now)
      ∧ (∀ u ∈ deleteCascade id tasks now,
          (u.id = id ∨ u.id ∈ getAllDescendantIds id tasks) → u.deletedAt = some now)
      ∧ getAllDescendantIds id (deleteCascade id tasks now) = [] := by
  refine ⟨?_, ?_, ?_⟩
  · unfold deleteCascade
    have : ∀ l : List Task, List.Forall₂ (fun a b =>
        b = if a.id = id ∨ a.id ∈ getAllDescendantIds id tasks then softDelete a now else a)
        l (l.map (fun t => if t.id == id || t.id ∈ getAllDescendantIds id tasks
          then softDelete t now else t)) := by
      intro l
      induction l with
      | nil => exact .nil
      | cons a l ih =>
        refine .cons ?_ ih
        by_cases h : a.id = id ∨ a.id ∈ getAllDescendantIds id tasks
        · have hb : (a.id == id || decide (a.id ∈ getAllDescendantIds id tasks)) = true := by
            simpa using h
          simp only [hb, if_true, if_pos h]
        · have hb : (a.id == id || decide (a.id ∈ getAllDescendantIds id tasks)) = false := by
            simpa using h
          simp only [hb, Bool.false_eq_true, if_false, if_neg h]
    exact this tasks
  · intro u hu hid
    unfold deleteCascade at hu
    rcases List.mem_map.mp hu with ⟨a, ha, heq⟩
    by_cases h : (a.id == id || decide (a.id ∈ getAllDescendantIds id tasks)) = true
    · have hu2 : u = softDelete a now := by rw [← heq]; simp [h]
      rw [hu2]; rfl
    · have hu2 : u = a := by rw [← heq]; simp [h]
      subst hu2
      simp only [Bool.or_eq_true, beq_iff_eq, decide_eq_true_eq, not_or] at h
      exact absurd hid (by tauto)
  · have hnochild : ∀ u ∈ deleteCascade id tasks now,
        ¬(u.parentId = some id ∧ u.deletedAt = none) := by
      rintro u hu ⟨hpar, hdel⟩
      unfold deleteCascade at hu
      rcases List.mem_map.mp hu with ⟨a, ha, heq⟩
      by_cases h : (a.id == id || decide (a.id ∈ getAllDescendantIds id tasks)) = true
      · have hu2 : u = softDelete a now := by rw [← heq]; simp [h]
        rw [hu2] at hdel
        simp [softDelete] at hdel
      · have hu2 : u = a := by rw [← heq]; simp [h]
        subst hu2
        simp only [Bool.or_eq_true, beq_iff_eq, decide_eq_true_eq, not_or] at h
        refine h.2 ?_
        unfold getAllDescendantIds
        have : collectDescFuel tasks (tasks.length + 1) id []
            = collectGo (collectDescFuel tasks tasks.length) tasks id [] := rfl
        rw [this]
        exact mem_collectGo_of_child _ (subset_collectDescFuel tasks tasks.length)
          tasks id [] u ha hpar hdel
    unfold getAllDescendantIds
    have : collectDescFuel (deleteCascade id tasks now) ((deleteCascade id tasks now).length + 1) id []
        = collectGo (collectDescFuel (deleteCascade id tasks now) (deleteCascade id tasks now).length)
            (deleteCascade id tasks now) id [] := rfl
    rw [this]
    exact collectGo_of_no_child _ _ _ _ hnochild

/-- Witness for deleteCascade_spec: deleting the root of the a/b/c forest
soft-deletes the whole subtree, the result has no remaining descendants of a,
and the concrete deleted child b is marked. -/
theorem deleteCascade_spec_witness :
    getAllDescendantIds "a" (deleteCascade "a" exABC 9) = []
      ∧ (softDelete (mkT "b" (some "a") 2) 9).deletedAt = some 9 :=
  ⟨(deleteCascade_spec "a" exABC 9).2.2,
   (deleteCascade_spec "a" exABC 9).2.1 (softDelete (mkT "b" (some "a") 2) 9)
     (by decide) (by decide)⟩

/-! ## Structure of the parent graph

These lemmas relate the embedded tree builder and traversals to the upward
parent walk parIter.  Throughout, hId is the data-model invariant of the spec
(section 3): ids are unique across the collection; it is stated for the live
tasks, which is what every traversal consults. -/
theorem mem_liveTasks {tasks : List Task} {t : Task} :
    t ∈ liveTasks tasks ↔ t ∈ tasks ∧ t.deletedAt = none := by
  simp [liveTasks, List.mem_filter, Option.isNone_iff_eq_none]

theorem id_inj {tasks : List Task} (hId : ((liveTasks tasks).map Task.id).Nodup)
    {x y : Task} (hx : x ∈ liveTasks tasks) (hy : y ∈ liveTasks tasks)
    (hxy : x.id = y.id) : x = y :=
  List.inj_on_of_nodup_map hId hx hy hxy

theorem isLiveId_iff {tasks : List Task} {pid : TaskId} :
    isLiveId tasks pid = true ↔ ∃ x ∈ liveTasks tasks, x.id = pid := by
  unfold isLiveId
  simp [List.any_eq_true]

theorem mem_childTasks {tasks : List Task} {pid : TaskId} {c : Task} :
    c ∈ childTasks tasks pid ↔ c ∈ liveTasks tasks ∧ c.parentId = some pid := by
  unfold childTasks
  simp [List.mem_filter]

theorem parentF_spec {tasks : List Task} {c p : Task} (h : parentF tasks c = some p) :
    p ∈ liveTasks tasks ∧ c.parentId = some p.id := by
  unfold parentF at h
  cases hc : c.parentId with
  | none => rw [hc] at h; cases h
  | some q =>
    rw [hc] at h
    have hm := List.mem_of_find?_eq_some h
    have hp := List.find?_some h
    simp only [Bool.and_eq_true, beq_iff_eq, Option.isNone_iff_eq_none] at hp
    exact ⟨mem_liveTasks.mpr ⟨hm, hp.2⟩, by rw [hp.1]⟩

theorem parentF_of_child {tasks : List Task}
    (hId : ((liveTasks tasks).map Task.id).Nodup) {c q : Task}
    (hpar : c.parentId = some q.id) (hq : q ∈ liveTasks tasks) :
    parentF tasks c = some q := by
  unfold parentF
  rw [hpar]
  show tasks.find? (fun x => x.id == q.id && x.deletedAt.isNone) = some q
  cases hfind : tasks.find? (fun x => x.id == q.id && x.deletedAt.isNone) with
  | none =>
    rw [List.find?_eq_none] at hfind
    exact absurd (by simp [(mem_liveTasks.mp hq).2] :
        (q.id == q.id && q.deletedAt.isNone) = true)
      (hfind q (mem_liveTasks.mp hq).1)
  | some p =>
    have hm := List.mem_of_find?_eq_some hfind
    have hp := List.find?_some hfind
    simp only [Bool.and_eq_true, beq_iff_eq, Option.isNone_iff_eq_none] at hp
    rw [id_inj hId (mem_liveTasks.mpr ⟨hm, hp.2⟩) hq hp.1]

theorem mem_rootTasks {tasks : List Task} {t : Task} :
    t ∈ rootTasks tasks ↔ t ∈ liveTasks tasks ∧ parentF tasks t = none := by
  unfold rootTasks
  rw [List.mem_filter]
  constructor
  · rintro ⟨hmem, hcond⟩
    refine ⟨hmem, ?_⟩
    unfold parentF
    cases hp : t.parentId with
    | none => rfl
    | some p =>
      rw [hp] at hcond
      simp only [Bool.not_eq_true'] at hcond
      rw [List.find?_eq_none]
      intro x hx hpred
      simp only [Bool.and_eq_true, beq_iff_eq, Option.isNone_iff_eq_none] at hpred
      have : isLiveId tasks p = true :=
        isLiveId_iff.mpr ⟨x, mem_liveTasks.mpr ⟨hx, hpred.2⟩, hpred.1⟩
      rw [this] at hcond
      cases hcond
  · rintro ⟨hmem, hpf⟩
    refine ⟨hmem, ?_⟩
    unfold parentF at hpf
    cases hp : t.parentId with
    | none => simp
    | some p =>
      rw [hp] at hpf
      rw [List.find?_eq_none] at hpf
      simp only [Bool.not_eq_true']
      by_contra hlive
      simp only [Bool.not_eq_false] at hlive
      obtain ⟨x, hx, hxid⟩ := isLiveId_iff.mp hlive
      exact absurd (by simp [hxid, (mem_liveTasks.mp hx).2] :
          (x.id == p && x.deletedAt.isNone) = true)
        (hpf x (mem_liveTasks.mp hx).1)

/-! ### The upward iteration -/
theorem parIter_zero (tasks : List Task) (t : Task) : parIter tasks 0 t = some t := rfl

theorem parIter_absorb (tasks : List Task) (k : Nat) :
    (fun o => Option.bind o (parentF tasks))^[k] none = none := by
  induction k with
  | zero => rfl
  | succ k ih => rw [Function.iterate_succ_apply, Option.bind]; exact ih

theorem parIter_succ_inner (tasks : List Task) (k : Nat) (t : Task) :
    parIter tasks (k + 1) t =
      match parentF tasks t with
      | none => none
      | some p => parIter tasks k p := by
  unfold parIter
  rw [Function.iterate_succ_apply]
  show (fun o => Option.bind o (parentF tasks))^[k] (parentF tasks t) = _
  cases parentF tasks t with
  | none => exact parIter_absorb tasks k
  | some p => rfl

theorem parIter_succ_outer (tasks : List Task) (k : Nat) (t : Task) :
    parIter tasks (k + 1) t = (parIter tasks k t).bind (parentF tasks) := by
  unfold parIter
  rw [Function.iterate_succ_apply']

theorem parIter_add (tasks : List Task) (a b : Nat) (t : Task) :
    parIter tasks (a + b) t =
      match parIter tasks b t with
      | none => none
      | some u => parIter tasks a u := by
  unfold parIter
  rw [Function.iterate_add_apply]
  cases h : (fun o => Option.bind o (parentF tasks))^[b] (some t) with
  | none => exact parIter_absorb tasks a
  | some u => rfl

theorem parIter_none_mono (tasks : List Task) {m n : Nat} {t : Task}
    (h : parIter tasks m t = none) (hmn : m ≤ n) : parIter tasks n t = none := by
  obtain ⟨e, rfl⟩ := Nat.exists_eq_add_of_le hmn
  rw [show m + e = e + m by omega, parIter_add, h]

theorem parIter_cycle_dies {tasks : List Task} {t : Task} {m n : Nat}
    (hc : parIter tasks m t = some t) (hm : 0 < m)
    (hd : parIter tasks n t = none) : False := by
  have per : ∀ j, parIter tasks (j * m) t = some t := by
    intro j
    induction j with
    | zero => rw [Nat.zero_mul]; exact parIter_zero tasks t
    | succ j ih =>
      rw [show (j + 1) * m = m + j * m by ring, parIter_add, ih]
      exact hc
  have hle : n ≤ n * m := Nat.le_mul_of_pos_right n hm
  have h2 := per n
  rw [parIter_none_mono tasks hd hle] at h2
  cases h2

theorem RootedAt.mem_live {tasks : List Task} {banned : List TaskId} {t : Task}
    (h : RootedAt tasks banned t) : t ∈ liveTasks tasks := by
  induction h with
  | root t ht => exact (List.mem_filter.mp ht).1
  | child banned t c hR hc hp ih => exact hc

theorem RootedAt.chain {tasks : List Task} {banned : List TaskId} {t : Task}
    (h : RootedAt tasks banned t) :
    ∃ chain : List Task, chain.map Task.id = banned ∧ ChainLink tasks (t :: chain) := by
  induction h with
  | root t ht => exact ⟨[], rfl, ht⟩
  | child banned t c hR hc hp ih =>
    obtain ⟨chain, hmap, hlink⟩ := ih
    exact ⟨t :: chain, by simp [hmap], ⟨hc, hp, hlink⟩⟩

theorem chainLink_live {tasks : List Task} :
    ∀ {l : List Task}, ChainLink tasks l → ∀ x ∈ l, x ∈ liveTasks tasks := by
  intro l
  induction l with
  | nil => intro _ x hx; cases hx
  | cons a rest ih =>
    cases rest with
    | nil =>
      intro h x hx
      rw [List.mem_singleton] at hx
      subst hx
      exact (List.mem_filter.mp h).1
    | cons b rest2 =>
      rintro ⟨ha, hp, hrest⟩ x hx
      rcases List.mem_cons.mp hx with rfl | hx
      · exact ha
      · exact ih hrest x hx

theorem chainLink_getD {tasks : List Task} (hId : ((liveTasks tasks).map Task.id).Nodup) :
    ∀ {chain : List Task} {t : Task}, ChainLink tasks (t :: chain) →
      ∀ i, i ≤ chain.length → parIter tasks i t = some ((t :: chain).getD i t) := by
  intro chain
  induction chain with
  | nil =>
    intro t _ i hi
    simp only [List.length_nil, Nat.le_zero] at hi
    subst hi
    rfl
  | cons b rest ih =>
    rintro t ⟨ht, hp, hlink⟩ i hi
    cases i with
    | zero => rfl
    | succ j =>
      have hb : b ∈ liveTasks tasks :=
        chainLink_live hlink b (List.mem_cons_self b rest)
      rw [parIter_succ_inner, parentF_of_child hId hp hb]
      have hj : j ≤ rest.length := by simpa using hi
      show parIter tasks j b = _
      rw [ih hlink j hj]
      congr 1
      rw [List.getD_cons_succ]
      rw [List.getD_eq_getElem _ _ (by simp; omega),
        List.getD_eq_getElem _ _ (by simp; omega)]

theorem chainLink_last_root {tasks : List Task} :
    ∀ {chain : List Task} {t : Task}, ChainLink tasks (t :: chain) →
      (t :: chain).getD chain.length t ∈ rootTasks tasks := by
  intro chain
  induction chain with
  | nil => intro t ht; exact ht
  | cons b rest ih =>
    rintro t ⟨ht, hp, hlink⟩
    have := ih hlink
    simpa using this

theorem chainLink_dies {tasks : List Task} (hId : ((liveTasks tasks).map Task.id).Nodup)
    {chain : List Task} {t : Task} (h : ChainLink tasks (t :: chain)) :
    parIter tasks (chain.length + 1) t = none := by
  rw [parIter_succ_outer, chainLink_getD hId h chain.length (le_refl _)]
  exact (mem_rootTasks.mp (chainLink_last_root h)).2

theorem rootedAt_dies {tasks : List Task} (hId : ((liveTasks tasks).map Task.id).Nodup)
    {banned : List TaskId} {t : Task} (h : RootedAt tasks banned t) :
    parIter tasks (banned.length + 1) t = none := by
  obtain ⟨chain, hmap, hlink⟩ := h.chain
  have : chain.length = banned.length := by rw [← hmap, List.length_map]
  rw [← this]
  exact chainLink_dies hId hlink

theorem rootedAt_no_cycle {tasks : List Task} (hId : ((liveTasks tasks).map Task.id).Nodup)
    {banned : List TaskId} {t : Task} {m : Nat} (h : RootedAt tasks banned t)
    (hm : 0 < m) : parIter tasks m t ≠ some t :=
  fun hc => parIter_cycle_dies hc hm (rootedAt_dies hId h)

theorem rootedAt_not_mem_banned {tasks : List Task}
    (hId : ((liveTasks tasks).map Task.id).Nodup) {banned : List TaskId} {t : Task}
    (h : RootedAt tasks banned t) : t.id ∉ banned := by
  obtain ⟨chain, hmap, hlink⟩ := h.chain
  intro hmem
  rw [← hmap] at hmem
  rcases List.mem_map.mp hmem with ⟨u, hu, hid⟩
  obtain ⟨j, hj, hju⟩ := List.mem_iff_getElem.mp hu
  have hu_live : u ∈ liveTasks tasks := chainLink_live hlink u (List.mem_cons_of_mem _ hu)
  have ht_live : t ∈ liveTasks tasks := chainLink_live hlink t (List.mem_cons_self _ _)
  have htu : t = u := id_inj hId ht_live hu_live hid.symm
  have hp : parIter tasks (j + 1) t = some ((t :: chain).getD (j + 1) t) :=
    chainLink_getD hId hlink (j + 1) (by omega)
  have hgd : (t :: chain).getD (j + 1) t = u := by
    rw [List.getD_eq_getElem _ _ (by simp; omega)]
    simpa using hju
  refine parIter_cycle_dies ?_ (Nat.succ_pos j) (chainLink_dies hId hlink)
  rw [hp, hgd, htu]

theorem mem_availTasks {tasks : List Task} {banned : List TaskId} {x : Task} :
    x ∈ availTasks tasks banned ↔ x ∈ liveTasks tasks ∧ x.id ∉ banned := by
  unfold availTasks
  simp [List.mem_filter]

theorem rootedAt_mem_avail {tasks : List Task}
    (hId : ((liveTasks tasks).map Task.id).Nodup) {banned : List TaskId} {t : Task}
    (h : RootedAt tasks banned t) : t ∈ availTasks tasks banned :=
  mem_availTasks.mpr ⟨h.mem_live, rootedAt_not_mem_banned hId h⟩

theorem avail_cons_lt {tasks : List Task}
    (hId : ((liveTasks tasks).map Task.id).Nodup) {banned : List TaskId} {t : Task}
    (h : RootedAt tasks banned t) :
    (availTasks tasks (t.id :: banned)).length < (availTasks tasks banned).length := by
  have heq : availTasks tasks (t.id :: banned)
      = (availTasks tasks banned).filter (fun x => !(x.id == t.id)) := by
    unfold availTasks
    rw [List.filter_filter]
    apply List.filter_congr
    intro x _
    simp only [List.contains_cons, Bool.not_or]
    try rw [Bool.and_comm]
  rw [heq]
  apply List.length_filter_lt_length_iff_exists.mpr
  exact ⟨t, rootedAt_mem_avail hId h, by simp⟩

theorem buildNodeFuel_stable {tasks : List Task}
    (hId : ((liveTasks tasks).map Task.id).Nodup) :
    ∀ (n : Nat) (banned : List TaskId) (t : Task) (d f₁ f₂ : Nat),
      RootedAt tasks banned t → (availTasks tasks banned).length ≤ n →
      n ≤ f₁ → n ≤ f₂ → buildNodeFuel tasks f₁ t d = buildNodeFuel tasks f₂ t d := by
  intro n
  induction n with
  | zero =>
    intro banned t d f₁ f₂ hR hn _ _
    have hmem := rootedAt_mem_avail hId hR
    have hpos : 0 < (availTasks tasks banned).length := List.length_pos_of_mem hmem
    omega
  | succ n ih =>
    intro banned t d f₁ f₂ hR hn h1 h2
    obtain ⟨g₁, rfl⟩ : ∃ g, f₁ = g + 1 := ⟨f₁ - 1, by omega⟩
    obtain ⟨g₂, rfl⟩ : ∃ g, f₂ = g + 1 := ⟨f₂ - 1, by omega⟩
    unfold buildNodeFuel
    congr 1
    apply List.map_congr_left
    intro c hc
    have hc' : c ∈ childTasks tasks t.id := by
      simpa [sortByCreatedAt, List.mem_insertionSort] using hc
    obtain ⟨hcl, hcp⟩ := mem_childTasks.mp hc'
    have hR' : RootedAt tasks (t.id :: banned) c := .child banned t c hR hcl hcp
    have hlt := avail_cons_lt hId hR
    exact ih (t.id :: banned) c (d + 1) g₁ g₂ hR' (by omega) (by omega) (by omega)

theorem avail_nil_length (tasks : List Task) :
    (availTasks tasks []).length = (liveTasks tasks).length := by
  unfold availTasks
  simp

theorem buildTaskTreeFuel_stable (tasks : List Task)
    (hId : ((liveTasks tasks).map Task.id).Nodup) :
    ∀ f, (liveTasks tasks).length ≤ f → buildTaskTreeFuel tasks f = buildTaskTree tasks := by
  intro f hf
  unfold buildTaskTree buildTaskTreeFuel
  apply List.map_congr_left
  intro r hr
  have hr' : r ∈ rootTasks tasks := by
    simpa [sortByCreatedAt, List.mem_insertionSort] using hr
  have hR : RootedAt tasks [] r := .root r hr'
  exact buildNodeFuel_stable hId (liveTasks tasks).length [] r 0 f (liveTasks tasks).length
    hR (by rw [avail_nil_length]) hf (le_refl _)

/-! ### What the built forest contains -/
theorem flattenNode_mk (t : Task) (cs : List TaskTreeNode) (d : Nat) :
    flattenNode (.mk t cs d) = .mk t cs d :: flattenList cs := by
  rw [flattenNode]

theorem flattenList_cons (n : TaskTreeNode) (ns : List TaskTreeNode) :
    flattenList (n :: ns) = flattenNode n ++ flattenList ns := by
  rw [flattenList]

theorem mem_flattenList_iff {ns : List TaskTreeNode} {x : Task} :
    x ∈ (flattenList ns).map TaskTreeNode.task
      ↔ ∃ n ∈ ns, x ∈ (flattenNode n).map TaskTreeNode.task := by
  induction ns with
  | nil => rw [flattenList]; simp
  | cons n ns ih =>
    rw [flattenList_cons]
    simp only [List.map_append, List.mem_append, ih, List.mem_cons]
    constructor
    · rintro (h | ⟨m, hm, hx⟩)
      · exact ⟨n, .inl rfl, h⟩
      · exact ⟨m, .inr hm, hx⟩
    · rintro ⟨m, rfl | hm, hx⟩
      · exact .inl hx
      · exact .inr ⟨m, hm, hx⟩

theorem parIter_live {tasks : List Task} {m : Nat} {x c : Task}
    (hx : x ∈ liveTasks tasks) (h : parIter tasks m x = some c) :
    c ∈ liveTasks tasks := by
  cases m with
  | zero =>
    rw [parIter_zero] at h
    cases h
    exact hx
  | succ m =>
    rw [parIter_succ_outer] at h
    cases ho : parIter tasks m x with
    | none => rw [ho] at h; cases h
    | some u =>
      rw [ho] at h
      exact (parentF_spec h).1

/-- The tasks in the subtree built at t are exactly the live tasks whose
upward parent walk reaches t. -/
theorem mem_buildNode_iff {tasks : List Task}
    (hId : ((liveTasks tasks).map Task.id).Nodup) :
    ∀ (n : Nat) (banned : List TaskId) (t : Task) (d f : Nat),
      RootedAt tasks banned t → (availTasks tasks banned).length ≤ n → n ≤ f →
      ∀ x, (x ∈ (flattenNode (buildNodeFuel tasks f t d)).map TaskTreeNode.task
        ↔ x ∈ liveTasks tasks ∧ ∃ k, parIter tasks k x = some t) := by
  intro n
  induction n with
  | zero =>
    intro banned t d f hR hn _
    have hmem := rootedAt_mem_avail hId hR
    have hpos : 0 < (availTasks tasks banned).length := List.length_pos_of_mem hmem
    omega
  | succ n ih =>
    intro banned t d f hR hn hf x
    obtain ⟨g, rfl⟩ : ∃ g, f = g + 1 := ⟨f - 1, by omega⟩
    rw [show buildNodeFuel tasks (g + 1) t d
        = .mk t ((sortByCreatedAt (childTasks tasks t.id)).map
            (fun c => buildNodeFuel tasks g c (d + 1))) d from rfl,
      flattenNode_mk]
    constructor
    · intro hx
      simp only [List.map_cons, List.mem_cons] at hx
      rcases hx with rfl | hx
      · exact ⟨hR.mem_live, 0, rfl⟩
      · obtain ⟨nn, hnn, hxn⟩ := mem_flattenList_iff.mp hx
        rcases List.mem_map.mp hnn with ⟨c, hc, rfl⟩
        have hc' : c ∈ childTasks tasks t.id := by
          simpa [sortByCreatedAt, List.mem_insertionSort] using hc
        obtain ⟨hcl, hcp⟩ := mem_childTasks.mp hc'
        have hR' := RootedAt.child banned t c hR hcl hcp
        have hlt := avail_cons_lt hId hR
        obtain ⟨hxl, k, hk⟩ :=
          (ih (t.id :: banned) c (d + 1) g hR' (by omega) (by omega) x).mp hxn
        refine ⟨hxl, k + 1, ?_⟩
        rw [parIter_succ_outer, hk]
        show parentF tasks c = some t
        exact parentF_of_child hId hcp hR.mem_live
    · rintro ⟨hxl, k, hk⟩
      cases k with
      | zero =>
        rw [parIter_zero] at hk
        cases hk
        simp only [List.map_cons, List.mem_cons]
        exact .inl rfl
      | succ m =>
        rw [parIter_succ_outer] at hk
        cases ho : parIter tasks m x with
        | none => rw [ho] at hk; cases hk
        | some c =>
          rw [ho] at hk
          have hpc : parentF tasks c = some t := hk
          have hcl : c ∈ liveTasks tasks := parIter_live hxl ho
          have hcp : c.parentId = some t.id := (parentF_spec hpc).2
          have hc' : c ∈ childTasks tasks t.id := mem_childTasks.mpr ⟨hcl, hcp⟩
          have hR' := RootedAt.child banned t c hR hcl hcp
          have hlt := avail_cons_lt hId hR
          have hsub :=
            (ih (t.id :: banned) c (d + 1) g hR' (by omega) (by omega) x).mpr ⟨hxl, m, ho⟩
          simp only [List.map_cons, List.mem_cons]
          refine .inr (mem_flattenList_iff.mpr ⟨buildNodeFuel tasks g c (d + 1), ?_, hsub⟩)
          exact List.mem_map.mpr ⟨c, by
            simpa [sortByCreatedAt, List.mem_insertionSort] using hc', rfl⟩

/-! ### Each task occurs at most once in the forest -/
theorem parIter_one (tasks : List Task) (c : Task) : parIter tasks 1 c = parentF tasks c := by
  rw [parIter_succ_outer, parIter_zero]
  rfl

/-- Two upward walks from the same task that land on two children of a rooted
task t land on the same child (k₁ < k₂ would force a parent cycle at t). -/
theorem chain_merge_lt {tasks : List Task}
    (hId : ((liveTasks tasks).map Task.id).Nodup) {banned : List TaskId}
    {t x c₁ c₂ : Task} {k₁ k₂ : Nat} (hR : RootedAt tasks banned t)
    (h₁ : parIter tasks k₁ x = some c₁) (h₂ : parIter tasks k₂ x = some c₂)
    (hp₁ : parentF tasks c₁ = some t) (hp₂ : parentF tasks c₂ = some t)
    (hlt : k₁ < k₂) : False := by
  have hcc : parIter tasks (k₂ - k₁) c₁ = some c₂ := by
    have h := h₂
    rw [show k₂ = (k₂ - k₁) + k₁ by omega, parIter_add, h₁] at h
    exact h
  have hp1 : parIter tasks 1 c₁ = some t := by rw [parIter_one]; exact hp₁
  have eA : parIter tasks ((k₂ - k₁) + 1) c₁ = parIter tasks (k₂ - k₁) t := by
    rw [parIter_add, hp1]
  have eB : parIter tasks (1 + (k₂ - k₁)) c₁ = some t := by
    rw [parIter_add, hcc]
    show parIter tasks 1 c₂ = some t
    rw [parIter_one]
    exact hp₂
  rw [show (k₂ - k₁) + 1 = 1 + (k₂ - k₁) by omega, eB] at eA
  exact rootedAt_no_cycle hId hR (by omega) eA.symm

theorem chain_merge {tasks : List Task}
    (hId : ((liveTasks tasks).map Task.id).Nodup) {banned : List TaskId}
    {t x c₁ c₂ : Task} {k₁ k₂ : Nat} (hR : RootedAt tasks banned t)
    (h₁ : parIter tasks k₁ x = some c₁) (h₂ : parIter tasks k₂ x = some c₂)
    (hp₁ : parentF tasks c₁ = some t) (hp₂ : parentF tasks c₂ = some t) :
    c₁ = c₂ := by
  rcases Nat.lt_trichotomy k₁ k₂ with hlt | heq | hgt
  · exact absurd (chain_merge_lt hId hR h₁ h₂ hp₁ hp₂ hlt) not_false
  · subst heq
    rw [h₁] at h₂
    cases h₂
    rfl
  · exact absurd (chain_merge_lt hId hR h₂ h₁ hp₂ hp₁ hgt) not_false

/-- The task list of a subtree of the built forest has no duplicates. -/
theorem buildNode_nodup {tasks : List Task}
    (hId : ((liveTasks tasks).map Task.id).Nodup) :
    ∀ (n : Nat) (banned : List TaskId) (t : Task) (d f : Nat),
      RootedAt tasks banned t → (availTasks tasks banned).length ≤ n → n ≤ f →
      ((flattenNode (buildNodeFuel tasks f t d)).map TaskTreeNode.task).Nodup := by
  intro n
  induction n with
  | zero =>
    intro banned t d f hR hn _
    have hmem := rootedAt_mem_avail hId hR
    have hpos : 0 < (availTasks tasks banned).length := List.length_pos_of_mem hmem
    omega
  | succ n ih =>
    intro banned t d f hR hn hf
    obtain ⟨g, rfl⟩ : ∃ g, f = g + 1 := ⟨f - 1, by omega⟩
    have hlt := avail_cons_lt hId hR
    have hchr : ∀ c, c ∈ childTasks tasks t.id →
        ∀ x, (x ∈ (flattenNode (buildNodeFuel tasks g c (d + 1))).map TaskTreeNode.task
          ↔ x ∈ liveTasks tasks ∧ ∃ k, parIter tasks k x = some c) := by
      intro c hc x
      obtain ⟨hcl, hcp⟩ := mem_childTasks.mp hc
      have hR' := RootedAt.child banned t c hR hcl hcp
      exact mem_buildNode_iff hId n (t.id :: banned) c (d + 1) g hR' (by omega) (by omega) x
    have hparent : ∀ c, c ∈ childTasks tasks t.id → parentF tasks c = some t := by
      intro c hc
      obtain ⟨hcl, hcp⟩ := mem_childTasks.mp hc
      exact parentF_of_child hId hcp hR.mem_live
    rw [show buildNodeFuel tasks (g + 1) t d
        = .mk t ((sortByCreatedAt (childTasks tasks t.id)).map
            (fun c => buildNodeFuel tasks g c (d + 1))) d from rfl,
      flattenNode_mk, List.map_cons]
    simp only [TaskTreeNode.task]
    rw [List.nodup_cons]
    constructor
    · intro hx
      obtain ⟨nn, hnn, hxn⟩ := mem_flattenList_iff.mp hx
      rcases List.mem_map.mp hnn with ⟨c, hc, rfl⟩
      have hc' : c ∈ childTasks tasks t.id := by
        simpa [sortByCreatedAt, List.mem_insertionSort] using hc
      obtain ⟨-, k, hk⟩ := (hchr c hc' _).mp hxn
      have hcyc : parIter tasks (k + 1) t = some t := by
        rw [parIter_succ_outer, hk]
        exact hparent c hc'
      exact rootedAt_no_cycle hId hR (Nat.succ_pos k) hcyc
    · have hnd_children : (sortByCreatedAt (childTasks tasks t.id)).Nodup := by
        have h1 : (childTasks tasks t.id).Nodup := (hId.of_map _).filter _
        exact ((List.perm_insertionSort _ _).nodup_iff).mpr h1
      have hsub : ∀ c ∈ sortByCreatedAt (childTasks tasks t.id), c ∈ childTasks tasks t.id := by
        intro c hc
        simpa [sortByCreatedAt, List.mem_insertionSort] using hc
      revert hnd_children hsub
      generalize sortByCreatedAt (childTasks tasks t.id) = cs
      intro hnd hmemc
      induction cs with
      | nil =>
        rw [show flattenList ([].map fun c => buildNodeFuel tasks g c (d + 1))
            = [] from rfl]
        exact List.nodup_nil
      | cons c cs ihc =>
        rw [List.map_cons, flattenList_cons, List.map_append, List.nodup_append]
        have hc' := hmemc c (List.mem_cons_self c cs)
        obtain ⟨hcl, hcp⟩ := mem_childTasks.mp hc'
        have hR' := RootedAt.child banned t c hR hcl hcp
        refine ⟨?_, ?_, ?_⟩
        · exact ih (t.id :: banned) c (d + 1) g hR' (by omega) (by omega)
        · exact ihc (List.nodup_cons.mp hnd).2
            (fun c' hc2 => hmemc c' (List.mem_cons_of_mem c hc2))
        · intro x hx1 hx2
          obtain ⟨nn, hnn, hxn⟩ := mem_flattenList_iff.mp hx2
          rcases List.mem_map.mp hnn with ⟨c', hcs', rfl⟩
          have hc2' : c' ∈ childTasks tasks t.id := hmemc c' (List.mem_cons_of_mem c hcs')
          obtain ⟨-, k₁, hk₁⟩ := (hchr c hc' _).mp hx1
          obtain ⟨-, k₂, hk₂⟩ := (hchr c' hc2' _).mp hxn
          have hcc := chain_merge hId hR hk₁ hk₂ (hparent c hc') (hparent c' hc2')
          exact (List.nodup_cons.mp hnd).1 (hcc ▸ hcs')

/-! ### The whole forest: no duplicates, and exactly the live tasks -/
theorem root_merge {tasks : List Task} {x r₁ r₂ : Task} {k₁ k₂ : Nat}
    (h₁ : parIter tasks k₁ x = some r₁) (h₂ : parIter tasks k₂ x = some r₂)
    (hr₁ : parentF tasks r₁ = none) (hr₂ : parentF tasks r₂ = none) : r₁ = r₂ := by
  have key : ∀ {a b : Nat} {s₁ s₂ : Task}, parIter tasks a x = some s₁ →
      parIter tasks b x = some s₂ → parentF tasks s₁ = none → a < b → False := by
    intro a b s₁ s₂ ha hb hs hab
    have hcc : parIter tasks (b - a) s₁ = some s₂ := by
      have h := hb
      rw [show b = (b - a) + a by omega, parIter_add, ha] at h
      exact h
    have hdead : parIter tasks 1 s₁ = none := by rw [parIter_one]; exact hs
    rw [parIter_none_mono tasks hdead (by omega : 1 ≤ b - a)] at hcc
    cases hcc
  rcases Nat.lt_trichotomy k₁ k₂ with hlt | heq | hgt
  · exact absurd (key h₁ h₂ hr₁ hlt) not_false
  · subst heq
    rw [h₁] at h₂
    cases h₂
    rfl
  · exact absurd (key h₂ h₁ hr₂ hgt) not_false

/-- Membership characterization for a whole root subtree of buildTaskTree. -/
theorem mem_root_subtree_iff {tasks : List Task}
    (hId : ((liveTasks tasks).map Task.id).Nodup) {r : Task}
    (hr : r ∈ rootTasks tasks) (x : Task) :
    x ∈ (flattenNode (buildNodeFuel tasks (liveTasks tasks).length r 0)).map
        TaskTreeNode.task
      ↔ x ∈ liveTasks tasks ∧ ∃ k, parIter tasks k x = some r :=
  mem_buildNode_iff hId (liveTasks tasks).length [] r 0 (liveTasks tasks).length
    (.root r hr) (by rw [avail_nil_length]) (le_refl _) x

theorem buildTaskTree_tasks_nodup (tasks : List Task)
    (hId : ((liveTasks tasks).map Task.id).Nodup) :
    ((flattenList (buildTaskTree tasks)).map TaskTreeNode.task).Nodup := by
  unfold buildTaskTree buildTaskTreeFuel
  have hnd_roots : (sortByCreatedAt (rootTasks tasks)).Nodup := by
    have h1 : (rootTasks tasks).Nodup := (hId.of_map _).filter _
    exact ((List.perm_insertionSort _ _).nodup_iff).mpr h1
  have hsub : ∀ r ∈ sortByCreatedAt (rootTasks tasks), r ∈ rootTasks tasks := by
    intro r hrr
    simpa [sortByCreatedAt, List.mem_insertionSort] using hrr
  revert hnd_roots hsub
  generalize sortByCreatedAt (rootTasks tasks) = rs
  intro hnd hmemr
  induction rs with
  | nil =>
    rw [show flattenList ([].map fun r => buildNodeFuel tasks (liveTasks tasks).length r 0)
        = [] from rfl]
    exact List.nodup_nil
  | cons r rs ihr =>
    rw [List.map_cons, flattenList_cons, List.map_append, List.nodup_append]
    have hr' := hmemr r (List.mem_cons_self r rs)
    refine ⟨?_, ?_, ?_⟩
    · exact buildNode_nodup hId (liveTasks tasks).length [] r 0 (liveTasks tasks).length
        (.root r hr') (by rw [avail_nil_length]) (le_refl _)
    · exact ihr (List.nodup_cons.mp hnd).2
        (fun r2 hr2 => hmemr r2 (List.mem_cons_of_mem r hr2))
    · intro x hx1 hx2
      obtain ⟨nn, hnn, hxn⟩ := mem_flattenList_iff.mp hx2
      rcases List.mem_map.mp hnn with ⟨r2, hrs2, rfl⟩
      have hr2' : r2 ∈ rootTasks tasks := hmemr r2 (List.mem_cons_of_mem r hrs2)
      obtain ⟨-, k₁, hk₁⟩ := (mem_root_subtree_iff hId hr' x).mp hx1
      obtain ⟨-, k₂, hk₂⟩ := (mem_root_subtree_iff hId hr2' x).mp hxn
      have := root_merge hk₁ hk₂ (mem_rootTasks.mp hr').2 (mem_rootTasks.mp hr2').2
      exact (List.nodup_cons.mp hnd).1 (this ▸ hrs2)

theorem mem_buildTaskTree_tasks {tasks : List Task}
    (hId : ((liveTasks tasks).map Task.id).Nodup) {x : Task} :
    x ∈ (flattenList (buildTaskTree tasks)).map TaskTreeNode.task
      ↔ x ∈ liveTasks tasks ∧ ∃ r ∈ rootTasks tasks, ∃ k, parIter tasks k x = some r := by
  unfold buildTaskTree buildTaskTreeFuel
  rw [mem_flattenList_iff]
  constructor
  · rintro ⟨nn, hnn, hxn⟩
    rcases List.mem_map.mp hnn with ⟨r, hrr, rfl⟩
    have hr' : r ∈ rootTasks tasks := by
      simpa [sortByCreatedAt, List.mem_insertionSort] using hrr
    obtain ⟨hxl, k, hk⟩ := (mem_root_subtree_iff hId hr' x).mp hxn
    exact ⟨hxl, r, hr', k, hk⟩
  · rintro ⟨hxl, r, hr', k, hk⟩
    refine ⟨buildNodeFuel tasks (liveTasks tasks).length r 0,
      List.mem_map.mpr ⟨r, ?_, rfl⟩, (mem_root_subtree_iff hId hr' x).mpr ⟨hxl, k, hk⟩⟩
    simpa [sortByCreatedAt, List.mem_insertionSort] using hr'

/-- With acyclic live parent links, every live task reaches a root, so it
appears in the forest. -/
theorem live_mem_buildTaskTree {tasks : List Task}
    (hId : ((liveTasks tasks).map Task.id).Nodup) (hAc : AcyclicTasks tasks) :
    ∀ x ∈ liveTasks tasks,
      x ∈ (flattenList (buildTaskTree tasks)).map TaskTreeNode.task := by
  suffices aux : ∀ (k : Nat) (x : Task), x ∈ liveTasks tasks → parIter tasks k x = none →
      x ∈ (flattenList (buildTaskTree tasks)).map TaskTreeNode.task by
    intro x hx
    exact aux tasks.length x hx (hAc x hx)
  intro k
  induction k with
  | zero =>
    intro x hx h0
    rw [parIter_zero] at h0
    cases h0
  | succ k ihk =>
    intro x hx hk
    cases hp : parentF tasks x with
    | none =>
      have hroot : x ∈ rootTasks tasks := mem_rootTasks.mpr ⟨hx, hp⟩
      exact (mem_buildTaskTree_tasks hId).mpr ⟨hx, x, hroot, 0, rfl⟩
    | some p =>
      have hpl : p ∈ liveTasks tasks := (parentF_spec hp).1
      have hkp : parIter tasks k p = none := by
        rw [parIter_succ_inner, hp] at hk
        exact hk
      obtain ⟨-, r, hr, m, hm⟩ := (mem_buildTaskTree_tasks hId).mp (ihk p hpl hkp)
      refine (mem_buildTaskTree_tasks hId).mpr ⟨hx, r, hr, m + 1, ?_⟩
      rw [parIter_succ_inner, hp]
      exact hm

theorem depthOKb_buildNode (tasks : List Task) :
    ∀ (f : Nat) (t : Task) (d : Nat), depthOKb (buildNodeFuel tasks f t d) d = true := by
  intro f
  induction f with
  | zero =>
    intro t d
    rw [show buildNodeFuel tasks 0 t d = .mk t [] d from rfl, depthOKb, depthOKlist]
    simp
  | succ f ihf =>
    intro t d
    rw [show buildNodeFuel tasks (f + 1) t d
        = .mk t ((sortByCreatedAt (childTasks tasks t.id)).map
            (fun c => buildNodeFuel tasks f c (d + 1))) d from rfl,
      depthOKb]
    simp only [beq_self_eq_true, Bool.true_and]
    have : ∀ cs : List Task,
        depthOKlist (cs.map (fun c => buildNodeFuel tasks f c (d + 1))) (d + 1) = true := by
      intro cs
      induction cs with
      | nil => rfl
      | cons c cs ihc =>
        rw [List.map_cons]
        show (depthOKb (buildNodeFuel tasks f c (d + 1)) (d + 1)
            && depthOKlist (cs.map fun c => buildNodeFuel tasks f c (d + 1)) (d + 1)) = true
        rw [ihf c (d + 1), ihc]
        rfl
    exact this _

/-! ### C2: the tree round-trip -/
/-- C2 counterexample: in exCyc the two live tasks form a parentId cycle
(with unique ids), the built forest is empty, and flattening it misses the
live task a entirely: the round-trip does not hold for every collection. -/
theorem tree_flatten_misses_cycle :
    (mkT "a" (some "b") 0) ∈ liveTasks exCyc
      ∧ flattenTaskTree (buildTaskTree exCyc) = []
      ∧ (mkT "a" (some "b") 0) ∉ (flattenTaskTree (buildTaskTree exCyc)).map TaskTreeNode.task := by
  refine ⟨by decide, rfl, ?_⟩
  rw [show flattenTaskTree (buildTaskTree exCyc) = [] from rfl]
  simp

/-- C2 (amended): for every collection with unique (live) ids whose parentId
links among live tasks are acyclic, flattening the forest produced by
buildTaskTree yields exactly the live tasks of the collection, each
appearing exactly once, and every node's depth equals its distance from the
roots of the forest (0 for roots, parent depth plus 1 for children). -/
theorem buildTaskTree_flatten_exact (tasks : List Task)
    (hId : ((liveTasks tasks).map Task.id).Nodup) (hAc : AcyclicTasks tasks) :
    ((flattenTaskTree (buildTaskTree tasks)).map TaskTreeNode.task).Nodup
      ∧ (∀ x, x ∈ (flattenTaskTree (buildTaskTree tasks)).map TaskTreeNode.task
          ↔ x ∈ liveTasks tasks)
      ∧ (∀ n ∈ buildTaskTree tasks, depthOKb n 0 = true) := by
  unfold flattenTaskTree
  refine ⟨buildTaskTree_tasks_nodup tasks hId, fun x => ?_, fun n hn => ?_⟩
  · constructor
    · intro hx
      exact ((mem_buildTaskTree_tasks hId).mp hx).1
    · intro hx
      exact live_mem_buildTaskTree hId hAc x hx
  · unfold buildTaskTree buildTaskTreeFuel at hn
    rcases List.mem_map.mp hn with ⟨r, _, rfl⟩
    exact depthOKb_buildNode tasks _ r 0

/-- Witness for buildTaskTree_flatten_exact: scenario 3 of the spec (root a,
children b and c). -/
theorem buildTaskTree_flatten_exact_witness :
    ((flattenTaskTree (buildTaskTree exABC)).map TaskTreeNode.task).Nodup
      ∧ ((mkT "a" none 1) ∈ (flattenTaskTree (buildTaskTree exABC)).map TaskTreeNode.task
          ↔ (mkT "a" none 1) ∈ liveTasks exABC)
      ∧ depthOKb (buildNodeFuel exABC 3 (mkT "a" none 1) 0) 0 = true :=
  ⟨(buildTaskTree_flatten_exact exABC (by decide) (by decide)).1,
   (buildTaskTree_flatten_exact exABC (by decide) (by decide)).2.1 (mkT "a" none 1),
   (buildTaskTree_flatten_exact exABC (by decide) (by decide)).2.2
     (buildNodeFuel exABC 3 (mkT "a" none 1) 0)
     (by rw [show buildTaskTree exABC = [buildNodeFuel exABC 3 (mkT "a" none 1) 0] from rfl]
         exact List.mem_singleton_self _)⟩

/-! ### C9: termination of the tree builder, cycles dropped -/
/-- C9: for every finite collection satisfying the unique-id invariant —
including collections whose live parentId links form a cycle — the tree
builder's recursion is exhausted at fuel = number of live tasks: any larger
fuel builds the same forest (this is the shallow-embedding statement that the
source recursion terminates).  Moreover every task lying on a parent cycle is
absent from the returned forest: it is neither a root nor reachable as a
descendant of any root. -/
theorem buildTaskTree_terminates_and_drops_cycles (tasks : List Task)
    (hId : ((liveTasks tasks).map Task.id).Nodup) :
    (∀ f, (liveTasks tasks).length ≤ f → buildTaskTreeFuel tasks f = buildTaskTree tasks)
      ∧ (∀ t ∈ liveTasks tasks, (∃ m, 0 < m ∧ parIter tasks m t = some t) →
          t ∉ (flattenTaskTree (buildTaskTree tasks)).map TaskTreeNode.task) := by
  refine ⟨buildTaskTreeFuel_stable tasks hId, ?_⟩
  rintro t ht ⟨m, hm, hcyc⟩ hmem
  unfold flattenTaskTree at hmem
  obtain ⟨-, r, hr, k, hk⟩ := (mem_buildTaskTree_tasks hId).mp hmem
  have hdead : parIter tasks (k + 1) t = none := by
    rw [parIter_succ_outer, hk]
    exact (mem_rootTasks.mp hr).2
  exact parIter_cycle_dies hcyc hm hdead

/-- Witness for buildTaskTree_terminates_and_drops_cycles: the concrete
two-task cycle exCyc stabilizes at fuel 2 and its task a is dropped. -/
theorem buildTaskTree_terminates_witness :
    buildTaskTreeFuel exCyc 5 = buildTaskTree exCyc
      ∧ (mkT "a" (some "b") 0) ∉ (flattenTaskTree (buildTaskTree exCyc)).map TaskTreeNode.task :=
  ⟨(buildTaskTree_terminates_and_drops_cycles exCyc (by decide)).1 5 (by decide),
   (buildTaskTree_terminates_and_drops_cycles exCyc (by decide)).2
     (mkT "a" (some "b") 0) (by decide) ⟨2, by decide, by decide⟩⟩

theorem ancLoopFuel_stable (tasks : List Task) :
    ∀ (k : Nat) (o : Option TaskId) (acc : List TaskId) (f₁ f₂ : Nat), k ≤ f₁ → k ≤ f₂ →
      (∀ cid, o = some cid → ∀ p,
        tasks.find? (fun x => x.id == cid && x.deletedAt.isNone) = some p →
        parIter tasks k p = none) →
      ancLoopFuel tasks f₁ o acc = ancLoopFuel tasks f₂ o acc := by
  intro k
  induction k with
  | zero =>
    intro o acc f₁ f₂ _ _ hdead
    cases o with
    | none => cases f₁ <;> cases f₂ <;> rfl
    | some cid =>
      cases hf : tasks.find? (fun x => x.id == cid && x.deletedAt.isNone) with
      | some p =>
        have := hdead cid rfl p hf
        rw [parIter_zero] at this
        cases this
      | none => cases f₁ <;> cases f₂ <;> simp [ancLoopFuel, hf]
  | succ m ih =>
    intro o acc f₁ f₂ h1 h2 hdead
    cases o with
    | none => cases f₁ <;> cases f₂ <;> rfl
    | some cid =>
      cases hf : tasks.find? (fun x => x.id == cid && x.deletedAt.isNone) with
      | none => cases f₁ <;> cases f₂ <;> simp [ancLoopFuel, hf]
      | some p =>
        obtain ⟨a, rfl⟩ : ∃ a, f₁ = a + 1 := ⟨f₁ - 1, by omega⟩
        obtain ⟨b, rfl⟩ : ∃ b, f₂ = b + 1 := ⟨f₂ - 1, by omega⟩
        rw [show ancLoopFuel tasks (a + 1) (some cid) acc
            = (match tasks.find? (fun x => x.id == cid && x.deletedAt.isNone) with
              | none => acc
              | some p => ancLoopFuel tasks a p.parentId (acc ++ [p.id])) from rfl, hf]
        rw [show ancLoopFuel tasks (b + 1) (some cid) acc
            = (match tasks.find? (fun x => x.id == cid && x.deletedAt.isNone) with
              | none => acc
              | some p => ancLoopFuel tasks b p.parentId (acc ++ [p.id])) from rfl, hf]
        apply ih p.parentId (acc ++ [p.id]) a b (by omega) (by omega)
        intro cid2 hpc q hq
        have hd := hdead cid rfl p hf
        rw [parIter_succ_inner] at hd
        have hpf : parentF tasks p = some q := by
          unfold parentF
          rw [hpc]
          exact hq
        rw [hpf] at hd
        exact hd

theorem collectDescFuel_stable (tasks : List Task)
    (hId : ((liveTasks tasks).map Task.id).Nodup) (hAc : AcyclicTasks tasks) :
    ∀ (r : Nat), r ≤ tasks.length → ∀ (i : TaskId),
      (∀ u ∈ liveTasks tasks, u.parentId = some i →
        ∀ k, parIter tasks k u = none → tasks.length - r < k) →
      ∀ (f₁ f₂ : Nat), r < f₁ → r < f₂ → ∀ acc,
        collectDescFuel tasks f₁ i acc = collectDescFuel tasks f₂ i acc := by
  intro r
  induction r with
  | zero =>
    intro _ i hsur f₁ f₂ h1 h2 acc
    have hno : ∀ u ∈ tasks, ¬(u.parentId = some i ∧ u.deletedAt = none) := by
      rintro u hu ⟨hup, hud⟩
      have hul : u ∈ liveTasks tasks := mem_liveTasks.mpr ⟨hu, hud⟩
      have := hsur u hul hup tasks.length (hAc u hul)
      omega
    obtain ⟨a, rfl⟩ : ∃ a, f₁ = a + 1 := ⟨f₁ - 1, by omega⟩
    obtain ⟨b, rfl⟩ : ∃ b, f₂ = b + 1 := ⟨f₂ - 1, by omega⟩
    rw [show collectDescFuel tasks (a + 1) i acc
        = collectGo (collectDescFuel tasks a) tasks i acc from rfl,
      show collectDescFuel tasks (b + 1) i acc
        = collectGo (collectDescFuel tasks b) tasks i acc from rfl,
      collectGo_of_no_child _ _ _ _ hno, collectGo_of_no_child _ _ _ _ hno]
  | succ r ihr =>
    intro hrlen i hsur f₁ f₂ h1 h2 acc
    obtain ⟨a, rfl⟩ : ∃ a, f₁ = a + 1 := ⟨f₁ - 1, by omega⟩
    obtain ⟨b, rfl⟩ : ∃ b, f₂ = b + 1 := ⟨f₂ - 1, by omega⟩
    rw [show collectDescFuel tasks (a + 1) i acc
        = collectGo (collectDescFuel tasks a) tasks i acc from rfl,
      show collectDescFuel tasks (b + 1) i acc
        = collectGo (collectDescFuel tasks b) tasks i acc from rfl]
    have inner : ∀ (l : List Task), (∀ u ∈ l, u ∈ tasks) → ∀ acc2,
        collectGo (collectDescFuel tasks a) l i acc2
          = collectGo (collectDescFuel tasks b) l i acc2 := by
      intro l hl
      induction l with
      | nil => intro acc2; rfl
      | cons u rest ihl =>
        intro acc2
        by_cases hcond : (u.parentId == some i && u.deletedAt.isNone) = true
        · simp only [collectGo]
          rw [if_pos hcond, if_pos hcond]
          simp only [Bool.and_eq_true, beq_iff_eq, Option.isNone_iff_eq_none] at hcond
          have hul : u ∈ liveTasks tasks := mem_liveTasks.mpr ⟨hl u (List.mem_cons_self u rest), hcond.2⟩
          have hacc : collectDescFuel tasks a u.id (addSet acc2 u.id)
              = collectDescFuel tasks b u.id (addSet acc2 u.id) := by
            apply ihr (by omega) u.id ?_ a b (by omega) (by omega)
            intro v hv hvp k hk
            have hpf : parentF tasks v = some u := parentF_of_child hId hvp hul
            cases k with
            | zero => rw [parIter_zero] at hk; cases hk
            | succ m =>
              rw [parIter_succ_inner, hpf] at hk
              have := hsur u hul hcond.1 m hk
              omega
          rw [hacc]
          exact ihl (fun v hv => hl v (List.mem_cons_of_mem u hv)) _
        · simp only [collectGo]
          rw [if_neg hcond, if_neg hcond]
          exact ihl (fun v hv => hl v (List.mem_cons_of_mem u hv)) _
    exact inner tasks (fun u hu => hu) acc

/-- C10: with acyclic parentId links among live tasks (and the unique-id
invariant), both recursive traversals are exhausted within the embedded fuel:
any fuel of at least tasks.length + 1 (descendants) resp. tasks.length
(ancestors) computes the same answer, which is the shallow-embedding
statement that the unguarded source recursions terminate for every taskId. -/
theorem traversals_terminate (tasks : List Task)
    (hId : ((liveTasks tasks).map Task.id).Nodup) (hAc : AcyclicTasks tasks)
    (taskId : TaskId) :
    (∀ f, tasks.length + 1 ≤ f →
        getAllDescendantIdsFuel tasks f taskId = getAllDescendantIds taskId tasks)
      ∧ (∀ f, tasks.length ≤ f →
        getAncestorIdsFuel tasks f taskId = getAncestorIds taskId tasks) := by
  constructor
  · intro f hf
    unfold getAllDescendantIdsFuel getAllDescendantIds
    apply collectDescFuel_stable tasks hId hAc tasks.length (le_refl _) taskId ?_ f
      (tasks.length + 1) (by omega) (by omega)
    intro u hu hup k hk
    cases k with
    | zero => rw [parIter_zero] at hk; cases hk
    | succ m => omega
  · intro f hf
    unfold getAncestorIdsFuel getAncestorIds
    cases hfind : tasks.find? (fun t => t.id == taskId && t.deletedAt.isNone) with
    | none => rfl
    | some t =>
      have hts := List.find?_some hfind
      simp only [Bool.and_eq_true, beq_iff_eq, Option.isNone_iff_eq_none] at hts
      have htl : t ∈ liveTasks tasks :=
        mem_liveTasks.mpr ⟨List.mem_of_find?_eq_some hfind, hts.2⟩
      apply ancLoopFuel_stable tasks tasks.length t.parentId [] f (tasks.length + 1)
        hf (by omega)
      intro cid hcid p hp
      have hpf : parentF tasks t = some p := by
        unfold parentF
        rw [hcid]
        exact hp
      have hlen : 1 ≤ tasks.length :=
        List.length_pos_of_mem (List.mem_of_find?_eq_some hfind)
      have hd := hAc t htl
      obtain ⟨m, hm⟩ : ∃ m, tasks.length = m + 1 := ⟨tasks.length - 1, by omega⟩
      rw [hm, parIter_succ_inner, hpf] at hd
      exact parIter_none_mono tasks hd (by omega)

/-- Witness for traversals_terminate: the a/b/c forest at larger fuels. -/
theorem traversals_terminate_witness :
    getAllDescendantIdsFuel exABC 9 "a" = getAllDescendantIds "a" exABC
      ∧ getAncestorIdsFuel exABC 7 "b" = getAncestorIds "b" exABC :=
  ⟨(traversals_terminate exABC (by decide) (by decide) "a").1 9 (by decide),
   (traversals_terminate exABC (by decide) (by decide) "b").2 7 (by decide)⟩

theorem taskKey_parts {a b : Task} (h : taskKey a = taskKey b) :
    a.id = b.id ∧ a.parentId = b.parentId ∧ a.deletedAt = b.deletedAt := by
  unfold taskKey at h
  rw [Prod.mk.injEq, Prod.mk.injEq] at h
  exact ⟨h.1, h.2.1, h.2.2⟩

theorem find_live_key {l₁ l₂ : List Task} (h : l₁.map taskKey = l₂.map taskKey)
    (cid : TaskId) :
    Option.map taskKey (l₁.find? (fun x => x.id == cid && x.deletedAt.isNone))
      = Option.map taskKey (l₂.find? (fun x => x.id == cid && x.deletedAt.isNone)) := by
  induction l₁ generalizing l₂ with
  | nil =>
    cases l₂ with
    | nil => rfl
    | cons b l₂ => simp at h
  | cons a l₁ ih =>
    cases l₂ with
    | nil => simp at h
    | cons b l₂ =>
      simp only [List.map_cons, List.cons.injEq] at h
      obtain ⟨hab, hrest⟩ := h
      obtain ⟨hid, hpid, hdel⟩ := taskKey_parts hab
      rw [List.find?_cons, List.find?_cons]
      rw [show (a.id == cid && a.deletedAt.isNone)
          = (b.id == cid && b.deletedAt.isNone) from by rw [hid, hdel]]
      cases hb : (b.id == cid && b.deletedAt.isNone) with
      | true =>
        show some (taskKey a) = some (taskKey b)
        rw [hab]
      | false => exact ih hrest

theorem ancLoopFuel_key {l₁ l₂ : List Task} (h : l₁.map taskKey = l₂.map taskKey) :
    ∀ (f : Nat) (o : Option TaskId) (acc : List TaskId),
      ancLoopFuel l₁ f o acc = ancLoopFuel l₂ f o acc := by
  intro f
  induction f with
  | zero =>
    intro o acc
    cases o <;> rfl
  | succ f ih =>
    intro o acc
    cases o with
    | none => rfl
    | some cid =>
      have hk := find_live_key h cid
      rw [show ancLoopFuel l₁ (f + 1) (some cid) acc
          = (match l₁.find? (fun x => x.id == cid && x.deletedAt.isNone) with
            | none => acc
            | some p => ancLoopFuel l₁ f p.parentId (acc ++ [p.id])) from rfl]
      rw [show ancLoopFuel l₂ (f + 1) (some cid) acc
          = (match l₂.find? (fun x => x.id == cid && x.deletedAt.isNone) with
            | none => acc
            | some p => ancLoopFuel l₂ f p.parentId (acc ++ [p.id])) from rfl]
      cases h1 : l₁.find? (fun x => x.id == cid && x.deletedAt.isNone) with
      | none =>
        rw [h1] at hk
        cases h2 : l₂.find? (fun x => x.id == cid && x.deletedAt.isNone) with
        | none => rfl
        | some q => rw [h2] at hk; cases hk
      | some p =>
        rw [h1] at hk
        cases h2 : l₂.find? (fun x => x.id == cid && x.deletedAt.isNone) with
        | none => rw [h2] at hk; cases hk
        | some q =>
          rw [h2] at hk
          have hk2 : taskKey p = taskKey q := Option.some.inj hk
          obtain ⟨hid, hpid, -⟩ := taskKey_parts hk2
          show ancLoopFuel l₁ f p.parentId (acc ++ [p.id])
            = ancLoopFuel l₂ f q.parentId (acc ++ [q.id])
          rw [hid, hpid]
          exact ih q.parentId (acc ++ [q.id])

theorem collectGo_key
    (rec₁ rec₂ : TaskId → List TaskId → List TaskId)
    (hrec : ∀ i acc, rec₁ i acc = rec₂ i acc) :
    ∀ (m₁ m₂ : List Task), m₁.map taskKey = m₂.map taskKey →
      ∀ (i : TaskId) (acc : List TaskId),
        collectGo rec₁ m₁ i acc = collectGo rec₂ m₂ i acc := by
  intro m₁
  induction m₁ with
  | nil =>
    intro m₂ h i acc
    cases m₂ with
    | nil => rfl
    | cons b m₂ => simp at h
  | cons a m₁ ih =>
    intro m₂ h i acc
    cases m₂ with
    | nil => simp at h
    | cons b m₂ =>
      simp only [List.map_cons, List.cons.injEq] at h
      obtain ⟨hab, hrest⟩ := h
      obtain ⟨hid, hpid, hdel⟩ := taskKey_parts hab
      rw [show collectGo rec₁ (a :: m₁) i acc
          = (if (a.parentId == some i && a.deletedAt.isNone) = true
            then collectGo rec₁ m₁ i (rec₁ a.id (addSet acc a.id))
            else collectGo rec₁ m₁ i acc) from by rw [collectGo]]
      rw [show collectGo rec₂ (b :: m₂) i acc
          = (if (b.parentId == some i && b.deletedAt.isNone) = true
            then collectGo rec₂ m₂ i (rec₂ b.id (addSet acc b.id))
            else collectGo rec₂ m₂ i acc) from by rw [collectGo]]
      rw [show (a.parentId == some i && a.deletedAt.isNone)
          = (b.parentId == some i && b.deletedAt.isNone) from by rw [hpid, hdel]]
      by_cases hc : (b.parentId == some i && b.deletedAt.isNone) = true
      · rw [if_pos hc, if_pos hc, hid, hrec]
        exact ih m₂ hrest i _
      · rw [if_neg hc, if_neg hc]
        exact ih m₂ hrest i acc

theorem collectDescFuel_key {l₁ l₂ : List Task} (h : l₁.map taskKey = l₂.map taskKey) :
    ∀ (f : Nat) (i : TaskId) (acc : List TaskId),
      collectDescFuel l₁ f i acc = collectDescFuel l₂ f i acc := by
  intro f
  induction f with
  | zero => intro i acc; rfl
  | succ f ih =>
    intro i acc
    rw [show collectDescFuel l₁ (f + 1) i acc
        = collectGo (collectDescFuel l₁ f) l₁ i acc from rfl,
      show collectDescFuel l₂ (f + 1) i acc
        = collectGo (collectDescFuel l₂ f) l₂ i acc from rfl]
    exact collectGo_key _ _ ih l₁ l₂ h i acc

theorem getAllDescendantIds_key {l₁ l₂ : List Task}
    (h : l₁.map taskKey = l₂.map taskKey) (hlen : l₁.length = l₂.length)
    (taskId : TaskId) :
    getAllDescendantIds taskId l₁ = getAllDescendantIds taskId l₂ := by
  unfold getAllDescendantIds
  rw [hlen]
  exact collectDescFuel_key h _ taskId []

theorem getAncestorIds_key {l₁ l₂ : List Task}
    (h : l₁.map taskKey = l₂.map taskKey) (hlen : l₁.length = l₂.length)
    (taskId : TaskId) :
    getAncestorIds taskId l₁ = getAncestorIds taskId l₂ := by
  unfold getAncestorIds
  have hk := find_live_key h taskId
  cases h1 : l₁.find? (fun x => x.id == taskId && x.deletedAt.isNone) with
  | none =>
    rw [h1] at hk
    cases h2 : l₂.find? (fun x => x.id == taskId && x.deletedAt.isNone) with
    | none => rfl
    | some q => rw [h2] at hk; cases hk
  | some p =>
    rw [h1] at hk
    cases h2 : l₂.find? (fun x => x.id == taskId && x.deletedAt.isNone) with
    | none => rw [h2] at hk; cases hk
    | some q =>
      rw [h2] at hk
      have hk2 : taskKey p = taskKey q := Option.some.inj hk
      obtain ⟨-, hpid, -⟩ := taskKey_parts hk2
      show ancLoopFuel l₁ (l₁.length + 1) p.parentId []
        = ancLoopFuel l₂ (l₂.length + 1) q.parentId []
      rw [hpid, hlen]
      exact ancLoopFuel_key h _ q.parentId []

theorem applyCompleted_nil (now : Int) (l : List Task) :
    applyCompleted [] now l = l := by
  unfold applyCompleted
  induction l with
  | nil => rfl
  | cons a l ih =>
    rw [List.map_cons, ih]
    rw [if_neg (List.not_mem_nil a.id)]

theorem setCompleted_key (t : Task) (now : Int) :
    taskKey (setCompleted t true now) = taskKey t := rfl

theorem applyCompleted_key (S : List TaskId) (now : Int) (l : List Task) :
    (applyCompleted S now l).map taskKey = l.map taskKey := by
  unfold applyCompleted
  rw [List.map_map]
  apply List.map_congr_left
  intro t _
  by_cases h : t.id ∈ S <;> simp [h, Function.comp, setCompleted, taskKey]

theorem applyCompleted_length (S : List TaskId) (now : Int) (l : List Task) :
    (applyCompleted S now l).length = l.length := by
  unfold applyCompleted
  rw [List.length_map]

theorem find_applyCompleted (S : List TaskId) (now : Int) (l : List Task) (tid : TaskId) :
    (applyCompleted S now l).find? (fun t => t.id == tid)
      = (l.find? (fun t => t.id == tid)).map
          (fun t => if t.id ∈ S then setCompleted t true now else t) := by
  unfold applyCompleted
  induction l with
  | nil => rfl
  | cons a l ih =>
    rw [List.map_cons, List.find?_cons, List.find?_cons]
    have hid : ((if a.id ∈ S then setCompleted a true now else a).id == tid)
        = (a.id == tid) := by
      by_cases h : a.id ∈ S <;> simp [h, setCompleted]
    rw [hid]
    cases hc : (a.id == tid) with
    | true => rfl
    | false => exact ih

theorem applyCompleted_snoc (S : List TaskId) (aid : TaskId) (now : Int) (l : List Task) :
    (applyCompleted S now l).map
        (fun t => if t.id == aid then setCompleted t true now else t)
      = applyCompleted (S ++ [aid]) now l := by
  unfold applyCompleted
  rw [List.map_map]
  apply List.map_congr_left
  intro t _
  show (fun u => if u.id == aid then setCompleted u true now else u)
      (if t.id ∈ S then setCompleted t true now else t)
    = if t.id ∈ S ++ [aid] then setCompleted t true now else t
  by_cases h1 : t.id ∈ S
  · rw [if_pos h1, if_pos (List.mem_append_left _ h1)]
    show (if (setCompleted t true now).id == aid then setCompleted (setCompleted t true now) true now
      else setCompleted t true now) = setCompleted t true now
    have hsame : ((setCompleted t true now).id == aid) = (t.id == aid) := rfl
    rw [hsame]
    by_cases h2 : (t.id == aid) = true
    · rw [if_pos h2]
      rfl
    · rw [if_neg h2]
  · rw [if_neg h1]
    show (if t.id == aid then setCompleted t true now else t)
      = if t.id ∈ S ++ [aid] then setCompleted t true now else t
    by_cases h2 : (t.id == aid) = true
    · rw [if_pos h2, if_pos (List.mem_append_right _ (by simpa using h2))]
    · rw [if_neg h2, if_neg ?_]
      rw [List.mem_append, List.mem_singleton]
      push_neg
      exact ⟨h1, by simpa using h2⟩

theorem cascadeStep_eq (now : Int) (st : List Task) (aid : TaskId) :
    cascadeStep now st aid
      = match st.find? (fun t => t.id == aid) with
        | none => st
        | some ancestor =>
          if (allDoneB aid st && !ancestor.completed) = true then
            st.map (fun t => if t.id == aid then setCompleted t true now else t)
          else st := rfl

theorem cascadeSet_cons_none (now : Int) (next0 : List Task) (aid : TaskId)
    (rest S : List TaskId)
    (hf : (applyCompleted S now next0).find? (fun t => t.id == aid) = none) :
    cascadeSet now next0 (aid :: rest) S = cascadeSet now next0 rest S := by
  rw [show cascadeSet now next0 (aid :: rest) S
      = (match (applyCompleted S now next0).find? (fun t => t.id == aid) with
        | none => cascadeSet now next0 rest S
        | some ancestor =>
          if (allDoneB aid (applyCompleted S now next0) && !ancestor.completed) = true then
            cascadeSet now next0 rest (S ++ [aid])
          else cascadeSet now next0 rest S) from rfl, hf]

theorem cascadeSet_cons_some (now : Int) (next0 : List Task) (aid : TaskId)
    (rest S : List TaskId) (ancestor : Task)
    (hf : (applyCompleted S now next0).find? (fun t => t.id == aid) = some ancestor) :
    cascadeSet now next0 (aid :: rest) S
      = if (allDoneB aid (applyCompleted S now next0) && !ancestor.completed) = true then
          cascadeSet now next0 rest (S ++ [aid])
        else cascadeSet now next0 rest S := by
  rw [show cascadeSet now next0 (aid :: rest) S
      = (match (applyCompleted S now next0).find? (fun t => t.id == aid) with
        | none => cascadeSet now next0 rest S
        | some ancestor =>
          if (allDoneB aid (applyCompleted S now next0) && !ancestor.completed) = true then
            cascadeSet now next0 rest (S ++ [aid])
          else cascadeSet now next0 rest S) from rfl, hf]

theorem cascadeStep_none (now : Int) (st : List Task) (aid : TaskId)
    (hf : st.find? (fun t => t.id == aid) = none) : cascadeStep now st aid = st := by
  rw [cascadeStep_eq, hf]

theorem cascadeStep_some (now : Int) (st : List Task) (aid : TaskId) (ancestor : Task)
    (hf : st.find? (fun t => t.id == aid) = some ancestor) :
    cascadeStep now st aid
      = if (allDoneB aid st && !ancestor.completed) = true then
          st.map (fun t => if t.id == aid then setCompleted t true now else t)
        else st := by
  rw [cascadeStep_eq, hf]

theorem foldl_cascadeStep_eq (now : Int) (next0 : List Task) :
    ∀ (l : List TaskId) (S : List TaskId),
      l.foldl (cascadeStep now) (applyCompleted S now next0)
        = applyCompleted (cascadeSet now next0 l S) now next0 := by
  intro l
  induction l with
  | nil => intro S; rfl
  | cons aid rest ih =>
    intro S
    rw [List.foldl_cons]
    cases hf : (applyCompleted S now next0).find? (fun t => t.id == aid) with
    | none =>
      rw [cascadeStep_none now _ aid hf, cascadeSet_cons_none now next0 aid rest S hf]
      exact ih S
    | some ancestor =>
      rw [cascadeStep_some now _ aid ancestor hf,
        cascadeSet_cons_some now next0 aid rest S ancestor hf]
      by_cases hcond : (allDoneB aid (applyCompleted S now next0) && !ancestor.completed) = true
      · rw [if_pos hcond, if_pos hcond, applyCompleted_snoc]
        exact ih (S ++ [aid])
      · rw [if_neg hcond, if_neg hcond]
        exact ih S

theorem toggleCompleteCascade_eq (id : TaskId) (tasks : List Task) (now : Int) :
    toggleCompleteCascade id tasks now
      = applyCompleted
          (cascadeSet now (tasks.map (fun t => if t.id == id then toggleComplete t now else t))
            (getAncestorIds id
              (tasks.map (fun t => if t.id == id then toggleComplete t now else t))) [])
          now (tasks.map (fun t => if t.id == id then toggleComplete t now else t)) := by
  unfold toggleCompleteCascade
  have h := foldl_cascadeStep_eq now
    (tasks.map (fun t => if t.id == id then toggleComplete t now else t))
    (getAncestorIds id (tasks.map (fun t => if t.id == id then toggleComplete t now else t))) []
  rw [applyCompleted_nil] at h
  exact h

theorem cascadeSet_sub (now : Int) (next0 : List Task) :
    ∀ (l S : List TaskId), ∀ a ∈ cascadeSet now next0 l S, a ∈ S ∨ a ∈ l := by
  intro l
  induction l with
  | nil => intro S a ha; exact .inl ha
  | cons aid rest ih =>
    intro S a ha
    cases hf : (applyCompleted S now next0).find? (fun t => t.id == aid) with
    | none =>
      rw [cascadeSet_cons_none now next0 aid rest S hf] at ha
      rcases ih S a ha with h | h
      · exact .inl h
      · exact .inr (List.mem_cons_of_mem aid h)
    | some ancestor =>
      rw [cascadeSet_cons_some now next0 aid rest S ancestor hf] at ha
      by_cases hcond : (allDoneB aid (applyCompleted S now next0) && !ancestor.completed) = true
      · rw [if_pos hcond] at ha
        rcases ih (S ++ [aid]) a ha with h | h
        · rcases List.mem_append.mp h with h2 | h2
          · exact .inl h2
          · rw [List.mem_singleton] at h2
            exact .inr (h2 ▸ List.mem_cons_self aid rest)
        · exact .inr (List.mem_cons_of_mem aid h)
      · rw [if_neg hcond] at ha
        rcases ih S a ha with h | h
        · exact .inl h
        · exact .inr (List.mem_cons_of_mem aid h)

theorem cascadeSet_append (now : Int) (next0 : List Task) :
    ∀ (l₁ l₂ S : List TaskId),
      cascadeSet now next0 (l₁ ++ l₂) S
        = cascadeSet now next0 l₂ (cascadeSet now next0 l₁ S) := by
  intro l₁
  induction l₁ with
  | nil => intro l₂ S; rfl
  | cons aid rest ih =>
    intro l₂ S
    rw [List.cons_append]
    cases hf : (applyCompleted S now next0).find? (fun t => t.id == aid) with
    | none =>
      rw [cascadeSet_cons_none now next0 aid (rest ++ l₂) S hf,
        cascadeSet_cons_none now next0 aid rest S hf]
      exact ih l₂ S
    | some ancestor =>
      rw [cascadeSet_cons_some now next0 aid (rest ++ l₂) S ancestor hf,
        cascadeSet_cons_some now next0 aid rest S ancestor hf]
      by_cases hcond : (allDoneB aid (applyCompleted S now next0) && !ancestor.completed) = true
      · rw [if_pos hcond, if_pos hcond]
        exact ih l₂ (S ++ [aid])
      · rw [if_neg hcond, if_neg hcond]
        exact ih l₂ S

theorem ancLoopFuel_eq_upChain (tasks : List Task) :
    ∀ (f : Nat) (o : Option TaskId) (acc : List TaskId),
      ancLoopFuel tasks f o acc = acc ++ upChain tasks f o := by
  intro f
  induction f with
  | zero =>
    intro o acc
    cases o <;> simp [ancLoopFuel, upChain]
  | succ f ih =>
    intro o acc
    cases o with
    | none => simp [ancLoopFuel, upChain]
    | some cid =>
      cases hf : tasks.find? (fun x => x.id == cid && x.deletedAt.isNone) with
      | none =>
        rw [show ancLoopFuel tasks (f + 1) (some cid) acc
            = (match tasks.find? (fun x => x.id == cid && x.deletedAt.isNone) with
              | none => acc
              | some p => ancLoopFuel tasks f p.parentId (acc ++ [p.id])) from rfl, hf]
        rw [show upChain tasks (f + 1) (some cid)
            = (match tasks.find? (fun x => x.id == cid && x.deletedAt.isNone) with
              | none => []
              | some p => p.id :: upChain tasks f p.parentId) from rfl, hf]
        rw [List.append_nil]
      | some p =>
        rw [show ancLoopFuel tasks (f + 1) (some cid) acc
            = (match tasks.find? (fun x => x.id == cid && x.deletedAt.isNone) with
              | none => acc
              | some p => ancLoopFuel tasks f p.parentId (acc ++ [p.id])) from rfl, hf]
        rw [show upChain tasks (f + 1) (some cid)
            = (match tasks.find? (fun x => x.id == cid && x.deletedAt.isNone) with
              | none => []
              | some p => p.id :: upChain tasks f p.parentId) from rfl, hf]
        show ancLoopFuel tasks f p.parentId (acc ++ [p.id])
            = acc ++ (p.id :: upChain tasks f p.parentId)
        rw [ih p.parentId (acc ++ [p.id]), List.append_assoc]
        rfl

theorem getAncestorIds_eq_upChain {taskId : TaskId} {tasks : List Task} {t : Task}
    (hfind : tasks.find? (fun x => x.id == taskId && x.deletedAt.isNone) = some t) :
    getAncestorIds taskId tasks = upChain tasks (tasks.length + 1) t.parentId := by
  unfold getAncestorIds
  rw [hfind]
  show ancLoopFuel tasks (tasks.length + 1) t.parentId [] = _
  rw [ancLoopFuel_eq_upChain, List.nil_append]

theorem mem_upChain {tasks : List Task} :
    ∀ (f : Nat) (u : Task) (aid : TaskId), aid ∈ upChain tasks f u.parentId →
      ∃ k, 1 ≤ k ∧ ∃ v, parIter tasks k u = some v ∧ v.id = aid := by
  intro f
  induction f with
  | zero =>
    intro u aid h
    cases ho : u.parentId <;> rw [ho] at h <;> simp [upChain] at h
  | succ f ih =>
    intro u aid h
    cases ho : u.parentId with
    | none => rw [ho] at h; simp [upChain] at h
    | some cid =>
      rw [ho] at h
      cases hf : tasks.find? (fun x => x.id == cid && x.deletedAt.isNone) with
      | none =>
        rw [show upChain tasks (f + 1) (some cid)
            = (match tasks.find? (fun x => x.id == cid && x.deletedAt.isNone) with
              | none => []
              | some p => p.id :: upChain tasks f p.parentId) from rfl, hf] at h
        simp at h
      | some p =>
        rw [show upChain tasks (f + 1) (some cid)
            = (match tasks.find? (fun x => x.id == cid && x.deletedAt.isNone) with
              | none => []
              | some p => p.id :: upChain tasks f p.parentId) from rfl, hf] at h
        have hpf : parentF tasks u = some p := by
          unfold parentF
          rw [ho]
          exact hf
        rcases List.mem_cons.mp h with rfl | h2
        · exact ⟨1, le_refl 1, p, by rw [parIter_one]; exact hpf, rfl⟩
        · obtain ⟨k, hk1, v, hv, hvid⟩ := ih p aid h2
          refine ⟨k + 1, by omega, v, ?_, hvid⟩
          rw [parIter_succ_inner, hpf]
          exact hv

theorem upChain_decomp {tasks : List Task} :
    ∀ (f : Nat) (o : Option TaskId) (pre post : List TaskId) (aid : TaskId),
      upChain tasks f o = pre ++ aid :: post →
      ∃ (v : Task) (g : Nat), v ∈ liveTasks tasks ∧ v.id = aid
        ∧ post = upChain tasks g v.parentId := by
  intro f
  induction f with
  | zero =>
    intro o pre post aid h
    cases o <;> simp [upChain] at h
  | succ f ih =>
    intro o pre post aid h
    cases o with
    | none =>
      simp [upChain] at h
    | some cid =>
      cases hf : tasks.find? (fun x => x.id == cid && x.deletedAt.isNone) with
      | none =>
        rw [show upChain tasks (f + 1) (some cid)
            = (match tasks.find? (fun x => x.id == cid && x.deletedAt.isNone) with
              | none => []
              | some p => p.id :: upChain tasks f p.parentId) from rfl, hf] at h
        simp at h
      | some p =>
        rw [show upChain tasks (f + 1) (some cid)
            = (match tasks.find? (fun x => x.id == cid && x.deletedAt.isNone) with
              | none => []
              | some p => p.id :: upChain tasks f p.parentId) from rfl, hf] at h
        have hps := List.find?_some hf
        simp only [Bool.and_eq_true, beq_iff_eq, Option.isNone_iff_eq_none] at hps
        have hpl : p ∈ liveTasks tasks :=
          mem_liveTasks.mpr ⟨List.mem_of_find?_eq_some hf, hps.2⟩
        cases pre with
        | nil =>
          rw [List.nil_append] at h
          injection h with h1 h2
          exact ⟨p, f, hpl, h1, h2.symm⟩
        | cons x pre2 =>
          rw [List.cons_append] at h
          injection h with h1 h2
          exact ih p.parentId pre2 post aid h2

theorem upChain_mem_live {tasks : List Task} {f : Nat} {o : Option TaskId} {aid : TaskId}
    (h : aid ∈ upChain tasks f o) : ∃ v ∈ liveTasks tasks, v.id = aid := by
  obtain ⟨pre, post, hsplit⟩ := List.append_of_mem h
  obtain ⟨v, g, hvl, hvid, -⟩ := upChain_decomp f o pre post aid hsplit
  exact ⟨v, hvl, hvid⟩

/-- The toggled task is never its own ancestor (acyclicity). -/
theorem not_self_mem_getAncestorIds {tasks : List Task}
    (hId : ((liveTasks tasks).map Task.id).Nodup) (hAc : AcyclicTasks tasks)
    (taskId : TaskId) : taskId ∉ getAncestorIds taskId tasks := by
  intro hmem
  unfold getAncestorIds at hmem
  cases hfind : tasks.find? (fun x => x.id == taskId && x.deletedAt.isNone) with
  | none => rw [hfind] at hmem; cases hmem
  | some t =>
    rw [hfind] at hmem
    have hmem2 : taskId ∈ upChain tasks (tasks.length + 1) t.parentId := by
      have := ancLoopFuel_eq_upChain tasks (tasks.length + 1) t.parentId []
      rw [List.nil_append] at this
      rw [← this]
      exact hmem
    obtain ⟨k, hk1, v, hv, hvid⟩ := mem_upChain (tasks.length + 1) t taskId hmem2
    have hts := List.find?_some hfind
    simp only [Bool.and_eq_true, beq_iff_eq, Option.isNone_iff_eq_none] at hts
    have htl : t ∈ liveTasks tasks :=
      mem_liveTasks.mpr ⟨List.mem_of_find?_eq_some hfind, hts.2⟩
    have hvl : v ∈ liveTasks tasks := parIter_live htl hv
    have hvt : v = t := id_inj hId hvl htl (by rw [hvid, hts.1])
    rw [hvt] at hv
    exact parIter_cycle_dies hv (by omega) (hAc t htl)

theorem idDesc_live {tasks : List Task} {a x : TaskId} (h : IdDesc tasks a x) :
    ∃ u ∈ liveTasks tasks, u.id = x := by
  induction h with
  | child pid t ht hp hd => exact ⟨t, mem_liveTasks.mpr ⟨ht, hd⟩, rfl⟩
  | trans pid t ht hp hd x hdesc ih => exact ih

theorem collectGo_sound {tasks : List Task} (rec : TaskId → List TaskId → List TaskId)
    (hrec : ∀ i acc x, x ∈ rec i acc → x ∈ acc ∨ IdDesc tasks i x) :
    ∀ (l : List Task), (∀ u ∈ l, u ∈ tasks) →
      ∀ (id : TaskId) (acc : List TaskId) (x : TaskId),
        x ∈ collectGo rec l id acc → x ∈ acc ∨ IdDesc tasks id x := by
  intro l
  induction l with
  | nil => intro _ id acc x hx; exact .inl hx
  | cons t rest ih =>
    intro hl id acc x hx
    have hrest : ∀ u ∈ rest, u ∈ tasks := fun u hu => hl u (List.mem_cons_of_mem t hu)
    have htm : t ∈ tasks := hl t (List.mem_cons_self t rest)
    unfold collectGo at hx
    by_cases hg : (t.parentId == some id && t.deletedAt.isNone) = true
    · rw [if_pos hg] at hx
      have hgl := hg
      simp only [Bool.and_eq_true, beq_iff_eq, Option.isNone_iff_eq_none] at hgl
      rcases ih hrest id _ x hx with h1 | h1
      · rcases hrec t.id _ x h1 with h2 | h2
        · unfold addSet at h2
          by_cases hm : t.id ∈ acc
          · rw [if_pos hm] at h2
            exact .inl h2
          · rw [if_neg hm] at h2
            rcases List.mem_append.mp h2 with h3 | h3
            · exact .inl h3
            · rw [List.mem_singleton] at h3
              subst h3
              exact .inr (IdDesc.child id t htm hgl.1 hgl.2)
        · exact .inr (IdDesc.trans id t htm hgl.1 hgl.2 x h2)
      · exact .inr h1
    · rw [if_neg hg] at hx
      exact ih hrest id acc x hx

theorem collectDescFuel_sound (tasks : List Task) :
    ∀ (f : Nat) (id : TaskId) (acc : List TaskId) (x : TaskId),
      x ∈ collectDescFuel tasks f id acc → x ∈ acc ∨ IdDesc tasks id x := by
  intro f
  induction f with
  | zero => intro id acc x hx; exact .inl hx
  | succ f ih =>
    intro id acc x hx
    unfold collectDescFuel at hx
    exact collectGo_sound (collectDescFuel tasks f) (fun i acc x h => ih i acc x h)
      tasks (fun u hu => hu) id acc x hx

/-- Everything getAllDescendantIds returns really is a downward-reachable
live id. -/
theorem getAllDescendantIds_sound {tasks : List Task} {id x : TaskId}
    (hx : x ∈ getAllDescendantIds id tasks) : IdDesc tasks id x := by
  unfold getAllDescendantIds at hx
  rcases collectDescFuel_sound tasks (tasks.length + 1) id [] x hx with h | h
  · cases h
  · exact h

theorem find_live_exists {tasks : List Task} {a : TaskId}
    (h : ∃ w ∈ liveTasks tasks, w.id = a) :
    ∃ w₀, tasks.find? (fun x => x.id == a && x.deletedAt.isNone) = some w₀
      ∧ w₀ ∈ liveTasks tasks ∧ w₀.id = a := by
  cases hf : tasks.find? (fun x => x.id == a && x.deletedAt.isNone) with
  | none =>
    obtain ⟨w, hw, hwid⟩ := h
    rw [List.find?_eq_none] at hf
    obtain ⟨hwm, hwd⟩ := mem_liveTasks.mp hw
    exact absurd (by simp [hwid, hwd]) (hf w hwm)
  | some w₀ =>
    have hp := List.find?_some hf
    simp only [Bool.and_eq_true, beq_iff_eq, Option.isNone_iff_eq_none] at hp
    exact ⟨w₀, rfl, mem_liveTasks.mpr ⟨List.mem_of_find?_eq_some hf, hp.2⟩, hp.1⟩

theorem find_id_exists {tasks : List Task} {a : TaskId} (w : Task) (hw : w ∈ tasks)
    (hwid : w.id = a) :
    ∃ d, tasks.find? (fun t => t.id == a) = some d ∧ d.id = a := by
  cases hf : tasks.find? (fun t => t.id == a) with
  | none =>
    rw [List.find?_eq_none] at hf
    exact absurd (by simp [hwid]) (hf w hw)
  | some d =>
    have hp := List.find?_some hf
    exact ⟨d, rfl, by simpa using hp⟩

/-- A downward-reachable id is also upward-reachable: some live task with
that id walks back up to (a live task with) the starting id. -/
theorem idDesc_reaches {tasks : List Task}
    (hId : ((liveTasks tasks).map Task.id).Nodup) {a x : TaskId}
    (h : IdDesc tasks a x) :
    (∃ w ∈ liveTasks tasks, w.id = a) →
    ∃ u ∈ liveTasks tasks, u.id = x
      ∧ ∃ k, 1 ≤ k ∧ ∃ v, parIter tasks k u = some v ∧ v.id = a := by
  induction h with
  | child pid t ht hp hd =>
    intro hw
    obtain ⟨w₀, hf, hw₀l, hw₀id⟩ := find_live_exists hw
    refine ⟨t, mem_liveTasks.mpr ⟨ht, hd⟩, rfl, 1, le_refl 1, w₀, ?_, hw₀id⟩
    rw [parIter_one]
    unfold parentF
    rw [hp]
    exact hf
  | trans pid t ht hp hd x hdesc ih =>
    intro hw
    have htl : t ∈ liveTasks tasks := mem_liveTasks.mpr ⟨ht, hd⟩
    obtain ⟨u, hul, huid, k, hk1, v, hv, hvid⟩ := ih ⟨t, htl, rfl⟩
    have hvl : v ∈ liveTasks tasks := parIter_live hul hv
    have hvt : v = t := id_inj hId hvl htl hvid
    obtain ⟨w₀, hf, hw₀l, hw₀id⟩ := find_live_exists hw
    refine ⟨u, hul, huid, k + 1, by omega, w₀, ?_, hw₀id⟩
    rw [show k + 1 = 1 + k by omega, parIter_add, hv]
    show parIter tasks 1 v = some w₀
    rw [parIter_one, hvt]
    unfold parentF
    rw [hp]
    exact hf

/-- With unique live ids and acyclic links, no id is its own strict
descendant. -/
theorem idDesc_irrefl {tasks : List Task}
    (hId : ((liveTasks tasks).map Task.id).Nodup) (hAc : AcyclicTasks tasks)
    {a : TaskId} (h : IdDesc tasks a a) : False := by
  obtain ⟨w, hwl, hwid⟩ := idDesc_live h
  obtain ⟨u, hul, huid, k, hk1, v, hv, hvid⟩ := idDesc_reaches hId h ⟨w, hwl, hwid⟩
  have hvl : v ∈ liveTasks tasks := parIter_live hul hv
  have hvu : v = u := id_inj hId hvl hul (by rw [hvid, huid])
  rw [hvu] at hv
  exact parIter_cycle_dies hv (by omega) (hAc u hul)

/-- With unique live ids and acyclic links, a strict ancestor of a live task
is never also one of its downward-reachable ids. -/
theorem desc_anc_exclusive {tasks : List Task}
    (hId : ((liveTasks tasks).map Task.id).Nodup) (hAc : AcyclicTasks tasks)
    {v w : Task} {k : Nat} (hvl : v ∈ liveTasks tasks) (hk : 1 ≤ k)
    (hvw : parIter tasks k v = some w) (h : IdDesc tasks v.id w.id) : False := by
  have hwl : w ∈ liveTasks tasks := parIter_live hvl hvw
  obtain ⟨u, hul, huid, m, hm1, z, hz, hzid⟩ := idDesc_reaches hId h ⟨v, hvl, rfl⟩
  have hu : u = w := id_inj hId hul hwl huid
  have hzl : z ∈ liveTasks tasks := parIter_live hul hz
  have hz2 : z = v := id_inj hId hzl hvl hzid
  rw [hu, hz2] at hz
  have hcyc : parIter tasks (m + k) v = some v := by
    rw [parIter_add, hvw]
    exact hz
  exact parIter_cycle_dies hcyc (by omega) (hAc v hvl)

/-- The i-th entry of the upward chain is the id reached after exactly i+1
parent steps. -/
theorem upChain_get_eq {tasks : List Task} :
    ∀ (f : Nat) (u : Task) (i : Nat) (aid : TaskId),
      (upChain tasks f u.parentId)[i]? = some aid →
      ∃ v, parIter tasks (i + 1) u = some v ∧ v.id = aid := by
  intro f
  induction f with
  | zero =>
    intro u i aid h
    cases ho : u.parentId <;> rw [ho] at h <;> simp [upChain] at h
  | succ f ih =>
    intro u i aid h
    cases ho : u.parentId with
    | none => rw [ho] at h; simp [upChain] at h
    | some cid =>
      rw [ho] at h
      cases hf : tasks.find? (fun x => x.id == cid && x.deletedAt.isNone) with
      | none =>
        rw [show upChain tasks (f + 1) (some cid)
            = (match tasks.find? (fun x => x.id == cid && x.deletedAt.isNone) with
              | none => []
              | some p => p.id :: upChain tasks f p.parentId) from rfl, hf] at h
        simp at h
      | some p =>
        rw [show upChain tasks (f + 1) (some cid)
            = (match tasks.find? (fun x => x.id == cid && x.deletedAt.isNone) with
              | none => []
              | some p => p.id :: upChain tasks f p.parentId) from rfl, hf] at h
        have hpf : parentF tasks u = some p := by
          unfold parentF
          rw [ho]
          exact hf
        cases i with
        | zero =>
          rw [List.getElem?_cons_zero] at h
          injection h with h1
          exact ⟨p, by rw [parIter_one]; exact hpf, h1⟩
        | succ j =>
          rw [List.getElem?_cons_succ] at h
          obtain ⟨v, hv, hvid⟩ := ih p j aid h
          refine ⟨v, ?_, hvid⟩
          rw [parIter_succ_inner, hpf]
          exact hv

/-- With unique live ids and acyclic links the ancestor list has no
repetitions. -/
theorem getAncestorIds_nodup {tasks : List Task}
    (hId : ((liveTasks tasks).map Task.id).Nodup) (hAc : AcyclicTasks tasks)
    (taskId : TaskId) : (getAncestorIds taskId tasks).Nodup := by
  cases hfind : tasks.find? (fun x => x.id == taskId && x.deletedAt.isNone) with
  | none =>
    have h0 : getAncestorIds taskId tasks = [] := by
      unfold getAncestorIds
      rw [hfind]
    rw [h0]
    exact List.nodup_nil
  | some t0 =>
    have hts := List.find?_some hfind
    simp only [Bool.and_eq_true, beq_iff_eq, Option.isNone_iff_eq_none] at hts
    have ht0l : t0 ∈ liveTasks tasks :=
      mem_liveTasks.mpr ⟨List.mem_of_find?_eq_some hfind, hts.2⟩
    rw [getAncestorIds_eq_upChain hfind]
    rw [List.nodup_iff_injective_get]
    have key : ∀ (i j : Nat) (hi : i < (upChain tasks (tasks.length + 1) t0.parentId).length)
        (hj : j < (upChain tasks (tasks.length + 1) t0.parentId).length), i < j →
        (upChain tasks (tasks.length + 1) t0.parentId).get ⟨i, hi⟩
          = (upChain tasks (tasks.length + 1) t0.parentId).get ⟨j, hj⟩ → False := by
      intro i j hi hj hij heq
      have h1 : (upChain tasks (tasks.length + 1) t0.parentId)[i]?
          = some ((upChain tasks (tasks.length + 1) t0.parentId).get ⟨i, hi⟩) := by
        rw [List.getElem?_eq_getElem hi, List.get_eq_getElem]
      have h2 : (upChain tasks (tasks.length + 1) t0.parentId)[j]?
          = some ((upChain tasks (tasks.length + 1) t0.parentId).get ⟨j, hj⟩) := by
        rw [List.getElem?_eq_getElem hj, List.get_eq_getElem]
      obtain ⟨vi, hvi, hviid⟩ := upChain_get_eq (tasks.length + 1) t0 i _ h1
      obtain ⟨vj, hvj, hvjid⟩ := upChain_get_eq (tasks.length + 1) t0 j _ h2
      have hvil : vi ∈ liveTasks tasks := parIter_live ht0l hvi
      have hvjl : vj ∈ liveTasks tasks := parIter_live ht0l hvj
      have hvv : vj = vi := id_inj hId hvjl hvil (by rw [hvjid, hviid, heq])
      have hsplit : parIter tasks ((j - i) + (i + 1)) t0 = some vi := by
        rw [show (j - i) + (i + 1) = j + 1 by omega, hvj, hvv]
      rw [parIter_add, hvi] at hsplit
      have hsplit2 : parIter tasks (j - i) vi = some vi := hsplit
      exact parIter_cycle_dies hsplit2 (by omega) (hAc vi hvil)
    intro a b hab
    rcases a with ⟨i, hi⟩
    rcases b with ⟨j, hj⟩
    rcases Nat.lt_trichotomy i j with h | h | h
    · exact (key i j hi hj h hab).elim
    · exact Fin.ext h
    · exact (key j i hj hi h hab.symm).elim

theorem cascade_as_set (id : TaskId) (tasks : List Task) (now : Int) :
    toggleCompleteCascade id tasks now
      = applyCompleted (cascadeIds id tasks now) now (toggledTasks id tasks now) :=
  toggleCompleteCascade_eq id tasks now

theorem completedIn_applyCompleted_none (S : List TaskId) (now : Int) (l : List Task)
    (tid : TaskId) (hf : l.find? (fun t => t.id == tid) = none) :
    completedIn (applyCompleted S now l) tid = false := by
  unfold completedIn
  rw [find_applyCompleted, hf]
  rfl

theorem completedIn_applyCompleted_some (S : List TaskId) (now : Int) (l : List Task)
    (tid : TaskId) (e : Task) (hf : l.find? (fun t => t.id == tid) = some e) :
    completedIn (applyCompleted S now l) tid = if e.id ∈ S then true else e.completed := by
  unfold completedIn
  rw [find_applyCompleted, hf]
  show (Option.map (fun (t : Task) => t.completed)
      (some (if e.id ∈ S then setCompleted e true now else e))).getD false = _
  by_cases h : e.id ∈ S
  · rw [if_pos h, if_pos h]
    rfl
  · rw [if_neg h, if_neg h]
    rfl

theorem toggledTasks_key (id : TaskId) (tasks : List Task) (now : Int) :
    (toggledTasks id tasks now).map taskKey = tasks.map taskKey := by
  unfold toggledTasks
  rw [List.map_map]
  apply List.map_congr_left
  intro t _
  show taskKey (if t.id == id then toggleComplete t now else t) = taskKey t
  by_cases h : (t.id == id) = true
  · rw [if_pos h]
    rfl
  · rw [if_neg h]

theorem toggledTasks_length (id : TaskId) (tasks : List Task) (now : Int) :
    (toggledTasks id tasks now).length = tasks.length := by
  unfold toggledTasks
  rw [List.length_map]

theorem find_toggledTasks (id : TaskId) (tasks : List Task) (now : Int) (tid : TaskId) :
    (toggledTasks id tasks now).find? (fun t => t.id == tid)
      = (tasks.find? (fun t => t.id == tid)).map
          (fun t => if t.id == id then toggleComplete t now else t) := by
  unfold toggledTasks
  induction tasks with
  | nil => rfl
  | cons a l ih =>
    rw [List.map_cons, List.find?_cons, List.find?_cons]
    have hid : ((if a.id == id then toggleComplete a now else a).id == tid)
        = (a.id == tid) := by
      by_cases h : (a.id == id) = true
      · rw [if_pos h]
        rfl
      · rw [if_neg h]
    rw [hid]
    cases hc : (a.id == tid) with
    | true => rfl
    | false => exact ih

/-- Ids already collected stay collected through the rest of the sweep. -/
theorem cascadeSet_mono (now : Int) (next0 : List Task) :
    ∀ (l S : List TaskId) (a : TaskId), a ∈ S → a ∈ cascadeSet now next0 l S := by
  intro l
  induction l with
  | nil => intro S a ha; exact ha
  | cons aid rest ih =>
    intro S a ha
    cases hf : (applyCompleted S now next0).find? (fun t => t.id == aid) with
    | none =>
      rw [cascadeSet_cons_none now next0 aid rest S hf]
      exact ih S a ha
    | some b =>
      rw [cascadeSet_cons_some now next0 aid rest S b hf]
      by_cases hc : (allDoneB aid (applyCompleted S now next0) && !b.completed) = true
      · rw [if_pos hc]
        exact ih _ a (List.mem_append_left _ ha)
      · rw [if_neg hc]
        exact ih S a ha

theorem allDoneB_true {aid : TaskId} {st : List Task}
    (hne : getAllDescendantIds aid st ≠ [])
    (hall : ∀ tid ∈ getAllDescendantIds aid st, completedIn st tid = true) :
    allDoneB aid st = true := by
  unfold allDoneB
  rw [Bool.and_eq_true]
  constructor
  · cases hd : getAllDescendantIds aid st with
    | nil => exact absurd hd hne
    | cons a l => rfl
  · rw [List.all_eq_true]
    intro tid htid
    exact hall tid htid

/-- A newly collected id always had a nonempty descendant set. -/
theorem cascadeSet_guard (now : Int) (next0 : List Task) :
    ∀ (l S : List TaskId) (a : TaskId), a ∈ cascadeSet now next0 l S →
      a ∈ S ∨ getAllDescendantIds a next0 ≠ [] := by
  intro l
  induction l with
  | nil => intro S a ha; exact .inl ha
  | cons aid rest ih =>
    intro S a ha
    cases hf : (applyCompleted S now next0).find? (fun t => t.id == aid) with
    | none =>
      rw [cascadeSet_cons_none now next0 aid rest S hf] at ha
      exact ih S a ha
    | some b =>
      rw [cascadeSet_cons_some now next0 aid rest S b hf] at ha
      by_cases hc : (allDoneB aid (applyCompleted S now next0) && !b.completed) = true
      · rw [if_pos hc] at ha
        rcases ih _ a ha with h1 | h1
        · rcases List.mem_append.mp h1 with h2 | h2
          · exact .inl h2
          · rw [List.mem_singleton] at h2
            subst h2
            right
            have hcc := ((Bool.and_eq_true _ _).mp hc).1
            unfold allDoneB at hcc
            have h3 := ((Bool.and_eq_true _ _).mp hcc).1
            rw [getAllDescendantIds_key (applyCompleted_key S now next0)
              (applyCompleted_length S now next0) a] at h3
            intro hnil
            rw [hnil] at h3
            simp at h3
        · exact .inr h1
      · rw [if_neg hc] at ha
        exact ih S a ha

theorem cascadeIds_sub (id : TaskId) (tasks : List Task) (now : Int) :
    ∀ a ∈ cascadeIds id tasks now, a ∈ getAncestorIds id tasks := by
  intro a ha
  unfold cascadeIds at ha
  rcases cascadeSet_sub now _ _ [] a ha with h | h
  · cases h
  · rw [getAncestorIds_key (toggledTasks_key id tasks now)
      (toggledTasks_length id tasks now) id] at h
    exact h

theorem cascadeIds_desc_ne (id : TaskId) (tasks : List Task) (now : Int) :
    ∀ a ∈ cascadeIds id tasks now, getAllDescendantIds a tasks ≠ [] := by
  intro a ha
  unfold cascadeIds at ha
  rcases cascadeSet_guard now _ _ [] a ha with h | h
  · cases h
  · rw [getAllDescendantIds_key (toggledTasks_key id tasks now)
      (toggledTasks_length id tasks now) a] at h
    exact h

theorem forall₂_map_self {α β : Type} (f : α → β) (R : α → β → Prop) (l : List α)
    (h : ∀ x ∈ l, R x (f x)) : List.Forall₂ R l (l.map f) := by
  induction l with
  | nil => exact List.Forall₂.nil
  | cons a l ih =>
    rw [List.map_cons]
    exact List.Forall₂.cons (h a (List.mem_cons_self a l))
      (ih (fun x hx => h x (List.mem_cons_of_mem a hx)))

theorem cascade_frame (id : TaskId) (tasks : List Task) (now : Int)
    (hId : ((liveTasks tasks).map Task.id).Nodup) (hAc : AcyclicTasks tasks) :
    List.Forall₂ (fun t u =>
        (t.id = id → u = toggleComplete t now)
        ∧ (t.id ≠ id → t.id ∉ getAncestorIds id tasks → u = t)
        ∧ (t.id ∈ getAncestorIds id tasks → u = t ∨ u = setCompleted t true now)
        ∧ (t.id ≠ id → getAllDescendantIds t.id tasks = [] → u = t))
      tasks (toggleCompleteCascade id tasks now) := by
  have hF1 : id ∉ getAncestorIds id tasks := not_self_mem_getAncestorIds hId hAc id
  rw [cascade_as_set]
  have hrw : applyCompleted (cascadeIds id tasks now) now (toggledTasks id tasks now)
      = tasks.map (fun t =>
          if (if t.id == id then toggleComplete t now else t).id ∈ cascadeIds id tasks now
          then setCompleted (if t.id == id then toggleComplete t now else t) true now
          else (if t.id == id then toggleComplete t now else t)) := by
    unfold applyCompleted toggledTasks
    rw [List.map_map]
    rfl
  rw [hrw]
  apply forall₂_map_self
  intro t ht
  refine ⟨?_, ?_, ?_, ?_⟩
  · intro h1
    have hcut : (if t.id == id then toggleComplete t now else t) = toggleComplete t now :=
      if_pos (by simp [h1])
    rw [hcut]
    have hnot : (toggleComplete t now).id ∉ cascadeIds id tasks now := by
      intro hm
      have h2 := cascadeIds_sub id tasks now _ hm
      rw [show (toggleComplete t now).id = t.id from rfl, h1] at h2
      exact hF1 h2
    rw [if_neg hnot]
  · intro h1 h2
    have hcut : (if t.id == id then toggleComplete t now else t) = t :=
      if_neg (by simp [h1])
    rw [hcut]
    rw [if_neg (fun hm => h2 (cascadeIds_sub id tasks now _ hm))]
  · intro h1
    have hne : t.id ≠ id := fun he => hF1 (he ▸ h1)
    have hcut : (if t.id == id then toggleComplete t now else t) = t :=
      if_neg (by simp [hne])
    rw [hcut]
    by_cases hm : t.id ∈ cascadeIds id tasks now
    · rw [if_pos hm]
      exact .inr rfl
    · rw [if_neg hm]
      exact .inl rfl
  · intro h1 h2
    have hcut : (if t.id == id then toggleComplete t now else t) = t :=
      if_neg (by simp [h1])
    rw [hcut]
    rw [if_neg (fun hm => (cascadeIds_desc_ne id tasks now _ hm) h2)]

theorem cascade_order (id : TaskId) (tasks : List Task) :
    ∀ (i : Nat) (hi : i < (getAncestorIds id tasks).length),
      ∃ t0 v, tasks.find? (fun x => x.id == id && x.deletedAt.isNone) = some t0
        ∧ parIter tasks (i + 1) t0 = some v
        ∧ v.id = (getAncestorIds id tasks).get ⟨i, hi⟩ := by
  intro i hi
  cases hfind : tasks.find? (fun x => x.id == id && x.deletedAt.isNone) with
  | none =>
    exfalso
    have h0 : getAncestorIds id tasks = [] := by
      unfold getAncestorIds
      rw [hfind]
    rw [h0] at hi
    simp at hi
  | some t0 =>
    have hancU := getAncestorIds_eq_upChain hfind
    have hq : (getAncestorIds id tasks)[i]?
        = some ((getAncestorIds id tasks).get ⟨i, hi⟩) := by
      rw [List.getElem?_eq_getElem hi, List.get_eq_getElem]
    have hq2 : (upChain tasks (tasks.length + 1) t0.parentId)[i]?
        = some ((getAncestorIds id tasks).get ⟨i, hi⟩) := by
      rw [← hancU]
      exact hq
    obtain ⟨v, hv, hvid⟩ := upChain_get_eq (tasks.length + 1) t0 i _ hq2
    exact ⟨t0, v, rfl, hv, hvid⟩

/-- The completion guarantee of the cascade: an uncompleted ancestor with a
nonempty descendant set, all of whose descendant ids end up completed, is
itself completed by the sweep. -/
theorem cascade_completes (id : TaskId) (tasks : List Task) (now : Int)
    (hId : ((liveTasks tasks).map Task.id).Nodup) (hAc : AcyclicTasks tasks)
    (aid : TaskId) (hmem : aid ∈ getAncestorIds id tasks)
    (hfalse : completedIn tasks aid = false)
    (hne : getAllDescendantIds aid tasks ≠ [])
    (hall : ∀ did ∈ getAllDescendantIds aid tasks,
      completedIn (toggleCompleteCascade id tasks now) did = true) :
    completedIn (toggleCompleteCascade id tasks now) aid = true := by
  have hanc : getAncestorIds id (toggledTasks id tasks now) = getAncestorIds id tasks :=
    getAncestorIds_key (toggledTasks_key id tasks now) (toggledTasks_length id tasks now) id
  have hdesc : ∀ a, getAllDescendantIds a (toggledTasks id tasks now)
      = getAllDescendantIds a tasks :=
    fun a => getAllDescendantIds_key (toggledTasks_key id tasks now)
      (toggledTasks_length id tasks now) a
  have hF1 : id ∉ getAncestorIds id tasks := not_self_mem_getAncestorIds hId hAc id
  have haidne : aid ≠ id := fun h => hF1 (h ▸ hmem)
  cases hfind : tasks.find? (fun x => x.id == id && x.deletedAt.isNone) with
  | none =>
    exfalso
    have h0 : getAncestorIds id tasks = [] := by
      unfold getAncestorIds
      rw [hfind]
    rw [h0] at hmem
    cases hmem
  | some t0 =>
    have ht0p := List.find?_some hfind
    simp only [Bool.and_eq_true, beq_iff_eq, Option.isNone_iff_eq_none] at ht0p
    have ht0l : t0 ∈ liveTasks tasks :=
      mem_liveTasks.mpr ⟨List.mem_of_find?_eq_some hfind, ht0p.2⟩
    have hancU : getAncestorIds id tasks = upChain tasks (tasks.length + 1) t0.parentId :=
      getAncestorIds_eq_upChain hfind
    obtain ⟨pre, post, hsplit⟩ := List.append_of_mem hmem
    have hnd := getAncestorIds_nodup hId hAc id
    rw [hsplit] at hnd
    have hnd2 := List.nodup_append.mp hnd
    have haidpre : aid ∉ pre := fun hp => hnd2.2.2 hp (List.mem_cons_self aid post)
    have hupsplit : upChain tasks (tasks.length + 1) t0.parentId = pre ++ aid :: post := by
      rw [← hancU]
      exact hsplit
    obtain ⟨v, g, hvl, hvid, hpost⟩ :=
      upChain_decomp (tasks.length + 1) t0.parentId pre post aid hupsplit
    have hancN : getAncestorIds id (toggledTasks id tasks now) = pre ++ aid :: post := by
      rw [hanc]
      exact hsplit
    have hSdef : cascadeIds id tasks now
        = cascadeSet now (toggledTasks id tasks now) (aid :: post)
            (cascadeSet now (toggledTasks id tasks now) pre []) := by
      unfold cascadeIds
      rw [hancN, cascadeSet_append]
    have hSpre_sub : ∀ a ∈ cascadeSet now (toggledTasks id tasks now) pre [], a ∈ pre := by
      intro a ha
      rcases cascadeSet_sub now _ pre [] a ha with h | h
      · cases h
      · exact h
    obtain ⟨d, hd, hdid⟩ := find_id_exists v (mem_liveTasks.mp hvl).1 hvid
    have hdcomp : d.completed = false := by
      unfold completedIn at hfalse
      rw [hd] at hfalse
      exact hfalse
    have hdN : (toggledTasks id tasks now).find? (fun t => t.id == aid) = some d := by
      rw [find_toggledTasks, hd]
      show some (if d.id == id then toggleComplete d now else d) = some d
      rw [if_neg (by rw [hdid]; simp [haidne])]
    have hdst : (applyCompleted (cascadeSet now (toggledTasks id tasks now) pre []) now
          (toggledTasks id tasks now)).find? (fun t => t.id == aid) = some d := by
      rw [find_applyCompleted, hdN]
      show some (if d.id ∈ cascadeSet now (toggledTasks id tasks now) pre []
          then setCompleted d true now else d) = some d
      rw [if_neg (fun hm => haidpre (hdid ▸ hSpre_sub d.id hm))]
    have hdescSt : getAllDescendantIds aid
        (applyCompleted (cascadeSet now (toggledTasks id tasks now) pre []) now
          (toggledTasks id tasks now)) = getAllDescendantIds aid tasks := by
      rw [getAllDescendantIds_key (applyCompleted_key _ now _)
        (applyCompleted_length _ now _) aid]
      exact hdesc aid
    have hvisitall : ∀ tid ∈ getAllDescendantIds aid tasks,
        completedIn (applyCompleted (cascadeSet now (toggledTasks id tasks now) pre []) now
          (toggledTasks id tasks now)) tid = true := by
      intro tid htid
      have hout := hall tid htid
      rw [cascade_as_set] at hout
      cases hfN : (toggledTasks id tasks now).find? (fun t => t.id == tid) with
      | none =>
        rw [completedIn_applyCompleted_none _ _ _ _ hfN] at hout
        exact Bool.noConfusion hout
      | some e =>
        rw [completedIn_applyCompleted_some _ _ _ _ _ hfN] at hout
        rw [completedIn_applyCompleted_some _ _ _ _ _ hfN]
        have heid : e.id = tid := by
          have := List.find?_some hfN
          simpa using this
        by_cases hS : e.id ∈ cascadeIds id tasks now
        · rw [hSdef] at hS
          rcases cascadeSet_sub now _ (aid :: post) _ e.id hS with h1 | h1
          · rw [if_pos h1]
          · rcases List.mem_cons.mp h1 with h2 | h2
            · exfalso
              have hddesc : IdDesc tasks aid tid := getAllDescendantIds_sound htid
              have htidaid : tid = aid := by rw [← heid, h2]
              rw [htidaid] at hddesc
              exact idDesc_irrefl hId hAc hddesc
            · exfalso
              have hmem2 : e.id ∈ upChain tasks g v.parentId := by
                rw [← hpost]
                exact h2
              obtain ⟨k, hk1, w, hw, hwid⟩ := mem_upChain g v e.id hmem2
              have hdd : IdDesc tasks v.id w.id := by
                rw [hvid, hwid, heid]
                exact getAllDescendantIds_sound htid
              exact desc_anc_exclusive hId hAc hvl hk1 hw hdd
        · rw [if_neg hS] at hout
          by_cases h2 : e.id ∈ cascadeSet now (toggledTasks id tasks now) pre []
          · rw [if_pos h2]
          · rw [if_neg h2]
            exact hout
    have hguard : allDoneB aid
        (applyCompleted (cascadeSet now (toggledTasks id tasks now) pre []) now
          (toggledTasks id tasks now)) = true := by
      apply allDoneB_true
      · rw [hdescSt]
        exact hne
      · intro tid htid
        rw [hdescSt] at htid
        exact hvisitall tid htid
    have hcond : (allDoneB aid
        (applyCompleted (cascadeSet now (toggledTasks id tasks now) pre []) now
          (toggledTasks id tasks now)) && !d.completed) = true := by
      rw [hguard, hdcomp]
      rfl
    have hstep : cascadeSet now (toggledTasks id tasks now) (aid :: post)
          (cascadeSet now (toggledTasks id tasks now) pre [])
        = cascadeSet now (toggledTasks id tasks now) post
            (cascadeSet now (toggledTasks id tasks now) pre [] ++ [aid]) := by
      rw [cascadeSet_cons_some now _ aid post _ d hdst, if_pos hcond]
    have haidS : aid ∈ cascadeIds id tasks now := by
      rw [hSdef, hstep]
      exact cascadeSet_mono now _ post _ aid
        (List.mem_append_right _ (List.mem_singleton.mpr rfl))
    rw [cascade_as_set]
    rw [completedIn_applyCompleted_some _ _ _ _ _ hdN]
    rw [if_pos (show d.id ∈ cascadeIds id tasks now from by rw [hdid]; exact haidS)]

/-- C3: handleToggleComplete toggles the task and sweeps its ancestors from
nearest to farthest: the i-th visited ancestor id lies exactly i+1 parent
steps above the toggled task.  Position by position, the toggled task is
replaced by its toggle, a task that is neither the toggled task nor an
ancestor is returned unchanged, an ancestor is either unchanged or completed
via setCompleted (never toggleComplete), and an ancestor whose descendant set
is empty is always unchanged.  Moreover every ancestor that is not yet
completed, has a nonempty descendant set, and all of whose descendant ids are
completed in the result, is completed in the result.  Hypotheses: the unique
live id invariant of spec section 3, and acyclic parentId links. -/
theorem toggleCompleteCascade_spec (id : TaskId) (tasks : List Task) (now : Int)
    (hId : ((liveTasks tasks).map Task.id).Nodup) (hAc : AcyclicTasks tasks) :
    List.Forall₂ (fun t u =>
        (t.id = id → u = toggleComplete t now)
        ∧ (t.id ≠ id → t.id ∉ getAncestorIds id tasks → u = t)
        ∧ (t.id ∈ getAncestorIds id tasks → u = t ∨ u = setCompleted t true now)
        ∧ (t.id ≠ id → getAllDescendantIds t.id tasks = [] → u = t))
      tasks (toggleCompleteCascade id tasks now)
    ∧ (∀ (i : Nat) (hi : i < (getAncestorIds id tasks).length),
        ∃ t0 v, tasks.find? (fun x => x.id == id && x.deletedAt.isNone) = some t0
          ∧ parIter tasks (i + 1) t0 = some v
          ∧ v.id = (getAncestorIds id tasks).get ⟨i, hi⟩)
    ∧ (∀ aid ∈ getAncestorIds id tasks,
        completedIn tasks aid = false →
        getAllDescendantIds aid tasks ≠ [] →
        (∀ did ∈ getAllDescendantIds aid tasks,
          completedIn (toggleCompleteCascade id tasks now) did = true) →
        completedIn (toggleCompleteCascade id tasks now) aid = true) :=
  ⟨cascade_frame id tasks now hId hAc, cascade_order id tasks,
   fun aid hmem hfalse hne hall =>
     cascade_completes id tasks now hId hAc aid hmem hfalse hne hall⟩

/-- Witness for C3 on exCascade: toggling b (sibling a already completed)
satisfies both hypotheses, the spec theorem applies, and the parent p indeed
ends up completed. -/
theorem toggleCompleteCascade_spec_witness :
    ((liveTasks exCascade).map Task.id).Nodup
    ∧ AcyclicTasks exCascade
    ∧ (List.Forall₂ (fun t u =>
          (t.id = "b" → u = toggleComplete t 9)
          ∧ (t.id ≠ "b" → t.id ∉ getAncestorIds "b" exCascade → u = t)
          ∧ (t.id ∈ getAncestorIds "b" exCascade → u = t ∨ u = setCompleted t true 9)
          ∧ (t.id ≠ "b" → getAllDescendantIds t.id exCascade = [] → u = t))
        exCascade (toggleCompleteCascade "b" exCascade 9)
      ∧ (∀ (i : Nat) (hi : i < (getAncestorIds "b" exCascade).length),
          ∃ t0 v, exCascade.find? (fun x => x.id == "b" && x.deletedAt.isNone) = some t0
            ∧ parIter exCascade (i + 1) t0 = some v
            ∧ v.id = (getAncestorIds "b" exCascade).get ⟨i, hi⟩)
      ∧ (∀ aid ∈ getAncestorIds "b" exCascade,
          completedIn exCascade aid = false →
          getAllDescendantIds aid exCascade ≠ [] →
          (∀ did ∈ getAllDescendantIds aid exCascade,
            completedIn (toggleCompleteCascade "b" exCascade 9) did = true) →
          completedIn (toggleCompleteCascade "b" exCascade 9) aid = true))
    ∧ completedIn (toggleCompleteCascade "b" exCascade 9) "p" = true :=
  ⟨by decide, by decide,
   toggleCompleteCascade_spec "b" exCascade 9 (by decide) (by decide),
   by decide⟩

end TodoVibe
